import Mathlib

/-!
Verification of the esrag core algorithms: the Jina-style text segmenter and
short-chunk merger (`JinaTextSegmenter.split_text` in `rag.py`), the
Reciprocal Rank Fusion function (`rrf` in `rag.py`), and the result
processing of `Collection.query` (`rag.py` / `src/elasticrag/collection.py`).

Python data structures are embedded as follows: a Python `dict` is an
insertion-ordered association list (`dictSet` updates a present key in place
and appends an absent one); Python `float` arithmetic on RRF scores is
idealised as exact rational arithmetic (`ℚ`); Python's `ZeroDivisionError`
for `1.0 / 0` is made explicit by running fallible code in `Except String`.
-/

namespace ESRag

/-! ## Python `dict` model -/

variable {K : Type} [DecidableEq K] {V : Type}

/-- Assignment `d[key] = v` on a Python `dict` represented as an
insertion-ordered association list: if `key` is present its binding is
updated in place (keeping its position), otherwise the new binding is
appended at the end. -/
def dictSet : List (K × V) → K → V → List (K × V)
  | [], key, v => [(key, v)]
  | p :: rest, key, v =>
      if p.1 = key then (key, v) :: rest else p :: dictSet rest key v

/-- Lookup `d[key]` on the association-list model of a Python `dict`. -/
def dictGet? : List (K × V) → K → Option V
  | [], _ => none
  | p :: rest, key => if p.1 = key then some p.2 else dictGet? rest key

/-- The keys of a Python `dict`, in insertion order. -/
def dictKeys (d : List (K × V)) : List K := d.map Prod.fst

/-! ## Reciprocal Rank Fusion (`rrf` in `rag.py`)

```python
def rrf(*queries, k: int = 60) -> List[tuple]:
    ranks = [{d[0]: i + 1 for i, d in enumerate(q)} for q in queries]
    result = {}
    for rank in ranks:
        for d in rank.keys():
            result[d] = (result[d] if d in result else 0) + 1.0 / (k + rank[d])
    return sorted(result.items(), key=lambda kv: kv[1], reverse=True)
```

Each query is a list of `(item_key, native_score)` pairs; the native score
(second component) is never read by `rrf`.  `k` is a Python `int`, so it is
embedded as `ℤ`; `1.0 / (k + rank[d])` raises `ZeroDivisionError` when
`k + rank[d] == 0`, which the embedding surfaces through `Except`. -/

/-- Python float division `a / b`: raises `ZeroDivisionError` on `b = 0`. -/
def pyDiv (a b : ℚ) : Except String ℚ :=
  if b = 0 then .error "ZeroDivisionError: float division by zero" else .ok (a / b)

/-- The dict comprehension `{d[0]: i + 1 for i, d in enumerate(q)}`: maps each
item key occurring in `q` to its 1-based position; a key occurring several
times ends up bound to the position of its last occurrence (later iterations
of the comprehension overwrite the value) while keeping the insertion
position of its first occurrence. -/
def rankDict (q : List (K × ℚ)) : List (K × Nat) :=
  q.enum.foldl (fun acc p => dictSet acc p.2.1 (p.1 + 1)) []

/-- The inner loop of `rrf`'s accumulation:
`for d in rank.keys(): result[d] = (result[d] if d in result else 0) + 1.0 / (k + rank[d])`,
with Python's possible `ZeroDivisionError` made explicit. Iterating the
`rank` dict's association list visits exactly `rank.keys()` in order, each
paired with its value `rank[d]`. -/
def accumStepE (k : ℤ) (result : List (K × ℚ)) (rank : List (K × Nat)) :
    Except String (List (K × ℚ)) :=
  rank.foldlM
    (fun result p => do
      let c ← pyDiv 1 ((k : ℚ) + (p.2 : ℚ))
      pure (dictSet result p.1 (((dictGet? result p.1).getD 0) + c)))
    result

/-- The accumulation loop of `rrf`: `for rank in ranks: <accumStepE>`. -/
def rrfAccumE (k : ℤ) (ranks : List (List (K × Nat))) : Except String (List (K × ℚ)) :=
  ranks.foldlM (accumStepE k) []

/-- Total counterpart of `accumStepE` (used once all divisors are known to
be nonzero; `1 / x` is the Lean rational division). -/
def accumStep (k : ℤ) (result : List (K × ℚ)) (rank : List (K × Nat)) : List (K × ℚ) :=
  rank.foldl
    (fun result p =>
      dictSet result p.1 (((dictGet? result p.1).getD 0) + 1 / ((k : ℚ) + (p.2 : ℚ))))
    result

/-- Total counterpart of `rrfAccumE`. -/
def rrfAccum (k : ℤ) (ranks : List (List (K × Nat))) : List (K × ℚ) :=
  ranks.foldl (accumStep k) []

/-- The comparator realising Python's
`sorted(result.items(), key=lambda kv: kv[1], reverse=True)`:
a stable sort that orders pairs by descending score. -/
def scoreDesc (a b : K × ℚ) : Bool := decide (b.2 ≤ a.2)

/-- `rrf` from `rag.py` (Reciprocal Rank Fusion). `queries` is the tuple of
ranked lists, `k` the discount constant (default `60` at call sites). -/
def rrf (queries : List (List (K × ℚ))) (k : ℤ) : Except String (List (K × ℚ)) := do
  let ranks := queries.map rankDict
  let result ← rrfAccumE k ranks
  pure (result.mergeSort scoreDesc)

/-- Total counterpart of `rrf` for nonnegative `k`. -/
def rrfTotal (queries : List (List (K × ℚ))) (k : ℤ) : List (K × ℚ) :=
  (rrfAccum k (queries.map rankDict)).mergeSort scoreDesc

/-! ### Specification-side vocabulary for the RRF claims -/

/-- The 1-based rank of `key` in a ranked list `q`, taking the first
occurrence (this is the rank the specification talks about; on lists with
distinct keys it agrees with `rankDict`). -/
def rankIn (q : List (K × ℚ)) (key : K) : Option Nat :=
  (q.findIdx? (fun p => p.1 = key)).map (· + 1)

/-- The 1-based rank of the last occurrence of `key` in `q` (what the
`rankDict` comprehension actually retains when keys repeat). `i` is the
1-based position of the head of the remaining list. -/
def lastRankFrom (key : K) : Nat → List (K × ℚ) → Option Nat
  | _, [] => none
  | i, p :: rest =>
      match lastRankFrom key (i + 1) rest with
      | some r => some r
      | none => if p.1 = key then some i else none

/-- The 1-based rank of the last occurrence of `key` in `q`. -/
def lastRank (q : List (K × ℚ)) (key : K) : Option Nat := lastRankFrom key 1 q

/-- The contribution of one ranked list to an item's RRF score:
`1/(k + rank)` if the item occurs (at rank `rank`), `0` otherwise. -/
def contribAt (k : ℤ) (r? : Option Nat) : ℚ :=
  match r? with
  | some r => 1 / ((k : ℚ) + (r : ℚ))
  | none => 0

/-- The RRF score the specification assigns to `key`: the sum over all lists
of `1/(k + rank of key in that list)`, absent lists contributing `0`
(ranks read at the first occurrence, as the spec demands). -/
def specScore (queries : List (List (K × ℚ))) (k : ℤ) (key : K) : ℚ :=
  (queries.map (fun q => contribAt k (rankIn q key))).sum

/-- The RRF score the code actually computes for `key` (ranks read at the
last occurrence within each list). -/
def codeScore (queries : List (List (K × ℚ))) (k : ℤ) (key : K) : ℚ :=
  (queries.map (fun q => contribAt k (lastRank q key))).sum

/-- Append a key to an accumulator unless it is already present (the step
that extracts first-encounter order). -/
def insertNew (acc : List K) (key : K) : List K :=
  if key ∈ acc then acc else acc ++ [key]

/-- The order in which item keys are first encountered when scanning the
ranked lists list-by-list and, within a list, item-by-item: every key keeps
only its first occurrence. -/
def firstSeenOrder (queries : List (List (K × ℚ))) : List K :=
  (queries.map (fun q => q.map Prod.fst)).flatten.foldl insertNew []

/-! ## Spans/chunks and the short-chunk merge pass of
`JinaTextSegmenter.split_text` (`rag.py`, lines 289–311)

```python
min_chunk_length, INF = self.MAX_SENTENCE_LENGTH // 2, 10000000
result, index = [], 0
for i, chunk in enumerate(chunks):
    chunk_length = chunk['metadata']['length']
    if chunk_length >= min_chunk_length:
        chunk['metadata']['index'] = index
        result.append(chunk)
        index += 1
    else:
        left = result[-1] if result else None
        right = chunks[i + 1] if i + 1 < len(chunks) else None
        left_length = left['metadata']['length'] if left else INF
        right_length = right['metadata']['length'] if right else INF
        if left_length < INF or right_length < INF:
            if left_length <= right_length:
                left['content'] += chunk['content']
                left['metadata']['length'] += chunk_length
                left['metadata']['end'] = chunk['metadata']['end']
            else:
                right['content'] = chunk['content'] + right['content']
                right['metadata']['length'] += chunk_length
                right['metadata']['start'] = chunk['metadata']['start']
return result
```

The chunk dict `{"content": ..., "metadata": {"index", "length", "start",
"end"}}` becomes the structure `Chunk` (field `stop` renders the Python key
`"end"`, a Lean keyword; `content` is the text as a list of code points).
The loop body reads `left` from the already-built `result` and `right` from
the original sequence at `i + 1`, and mutates them in place, so the
recursive embedding carries `result` and the still-unprocessed suffix of
`chunks` (whose head is exactly `chunks[i + 1]`), rewriting that head on a
merge-right. Accessing a field of `left`/`right` when it is `None` would
raise `TypeError` in Python, so the loop runs in `Except`. -/

/-- A span/chunk produced by the segmenter: `content` plus the metadata
fields `index`, `length`, `start` and `end` (`stop` here). -/
structure Chunk where
  content : List Nat
  index : Nat
  length : Nat
  start : Nat
  stop : Nat
deriving DecidableEq, Repr

/-- `MAX_SENTENCE_LENGTH` of `JinaTextSegmenter` (`rag.py`). -/
def MAX_SENTENCE_LENGTH : Nat := 600

/-- Merge-left: append the short span's content to the left neighbour, add
its length, move the neighbour's `end` (the in-place update of
`result[-1]`). -/
def mergeLeftInto (l chunk : Chunk) : Chunk :=
  { l with
      content := l.content ++ chunk.content,
      length := l.length + chunk.length,
      stop := chunk.stop }

/-- Merge-right: prepend the short span's content to the next original
span, add its length, move that span's `start` (the in-place update of
`chunks[i + 1]`). -/
def mergeRightInto (chunk r : Chunk) : Chunk :=
  { r with
      content := chunk.content ++ r.content,
      length := r.length + chunk.length,
      start := chunk.start }

/-- The in-place update of `result[-1]` at the list level: replace the last
element by its merge with the short span (identity on the empty list, which
the caller rules out). -/
def mergeLeftAt (result : List Chunk) (chunk : Chunk) : List Chunk :=
  result.dropLast ++ (result.getLast?).elim [] (fun l => [mergeLeftInto l chunk])

/-- The merge loop of `split_text`: `result` is the accumulated output,
the second list the unprocessed suffix of the original chunk sequence
(its head plays the role of `chunks[i + 1]`, read through `rest.head?` for
`right_length` and updated in place through `List.modifyHead` on a
merge-right, so the next iteration sees the updated span). Accessing
`left`/`right` when it is `None` — which the guards make unreachable —
is Python's `TypeError`. -/
def mergeLoop (minLen INF : Nat) : List Chunk → List Chunk → Except String (List Chunk)
  | result, [] => .ok result
  | result, chunk :: rest =>
      if minLen ≤ chunk.length then
        mergeLoop minLen INF (result ++ [{ chunk with index := result.length }]) rest
      else
        let leftLength := (result.getLast?).elim INF Chunk.length
        let rightLength := (rest.head?).elim INF Chunk.length
        if leftLength < INF ∨ rightLength < INF then
          if leftLength ≤ rightLength then
            if result.isEmpty then .error "TypeError: NoneType"
            else mergeLoop minLen INF (mergeLeftAt result chunk) rest
          else
            if rest.isEmpty then .error "TypeError: NoneType"
            else mergeLoop minLen INF result (rest.modifyHead (mergeRightInto chunk))
        else
          mergeLoop minLen INF result rest
termination_by _ chunks => chunks.length
decreasing_by all_goals simp_arith [List.length_modifyHead]

/-- The merge pass of `split_text` with the constants of the source:
`min_chunk_length = MAX_SENTENCE_LENGTH // 2 = 300`, `INF = 10000000`. -/
def mergeChunks (chunks : List Chunk) : Except String (List Chunk) :=
  mergeLoop (MAX_SENTENCE_LENGTH / 2) 10000000 [] chunks

/-- Left-to-right document order of a span sequence: each span starts no
later than it stops, and any span placed earlier stops no later than a
later span starts. -/
def chunksOrdered (l : List Chunk) : Prop :=
  (∀ c ∈ l, c.start ≤ c.stop) ∧ l.Pairwise (fun a b => a.stop ≤ b.start)

/-- The total metadata length of a span sequence. -/
def totalLen (l : List Chunk) : Nat := (l.map Chunk.length).sum

/-! ## Result processing of `Collection.query`
(`rag.py`, lines 962–1022; identical in `src/elasticrag/collection.py`)

After `asyncio.gather(..., return_exceptions=True)` the orchestrator holds
one response per issued sub-query: the lexical (text) search first, then the
vector search when one was issued. Each non-exception response is reduced by
the doc/chunk extraction loop to its `chunk_results` list of
`(chunk_key, native_score)` pairs; an exception is logged and skipped.
The embedding represents a response directly by
`Except String (List (K × ℚ))`: the extracted pair list, or the exception.

```python
for i, response in enumerate(responses):
    if isinstance(response, Exception):
        logging.warning(...); continue
    ... chunk_results.append((chunk_key, chunk['_score'])) ...
    search_results.append(chunk_results)
if len(search_results) == 1:
    merged_results = search_results[0]
elif len(search_results) > 1:
    merged_results = rrf(*search_results, k=60)
else:
    merged_results = []
...
for chunk_key, rrf_score in merged_results[:size]: ...
```

The final loop only re-attaches per-chunk data stored for keys coming from
the very same responses, so the embedding keeps the `(key, score)` level and
the `[:size]` truncation. -/

/-- The response loop: failed sub-queries are dropped (after logging), the
successful ones contribute their `chunk_results` list, in order. -/
def collectSearchResults (responses : List (Except String (List (K × ℚ)))) :
    List (List (K × ℚ)) :=
  responses.filterMap (fun r =>
    match r with
    | .error _ => none
    | .ok hits => some hits)

/-- The merge branch of `Collection.query`: one successful list is returned
directly (native scores!), two or more are fused with `rrf(..., k=60)`,
none yields the empty list. -/
def mergedResults (searchResults : List (List (K × ℚ))) :
    Except String (List (K × ℚ)) :=
  match searchResults with
  | [l] => .ok l
  | [] => .ok []
  | ls => rrf ls 60

/-- The `(chunk_key, rrf_score)` prefix of length `size` that
`Collection.query` builds its final results from. -/
def queryResults (size : Nat) (responses : List (Except String (List (K × ℚ)))) :
    Except String (List (K × ℚ)) := do
  let merged ← mergedResults (collectSearchResults responses)
  pure (merged.take size)

/-! ## A regular-expression engine for the segmenter pattern

`JinaTextSegmenter.split_text` (line 288) evaluates
`re.finditer(self.get_pattern(), text, flags=re.MULTILINE | re.DOTALL)`;
the module never imports `re`, so that call raises `NameError` (modelled
in `reGlobal` below), and the engine here records the semantics the
pattern itself denotes. The pattern built by `get_pattern` uses: ordered alternation, concatenation,
character classes, bounded greedy and lazy repetition (`{m,n}`, `{m,n}?`,
`*`, `+`, `?`), positive and negative lookahead, negative lookbehind, and
the anchors `^`/`$` (which, under `re.MULTILINE`, match at the start/end of
every line). `re.DOTALL` only affects `.`, which the pattern uses inside
`(?:(?!…).)`; it is embedded as the any-character class. The engine below
implements exactly these constructs with Python's leftmost,
first-alternative, greedy-backtracking semantics, in continuation-passing
style with a fuel bound (every construct in the pattern consumes at least
one character per repetition, so a fuel larger than pattern size times input
length is never exhausted on the inputs evaluated here). Strings are lists
of Unicode code points, as in Python. -/

/-- Regular expressions, as used by `get_pattern`. `cls p` matches one
character satisfying `p`; `rep a lo hi lz` is `a{lo,hi}` (`hi = none` for
unbounded), lazy when `lz`; `look r neg` is `(?=r)`/`(?!r)`;
`lookb r neg` is `(?<=r)`/`(?<!r)`; `bol`/`eol` are `^`/`$` under
`re.MULTILINE`. -/
inductive RE where
  | eps : RE
  | cls (p : Nat → Bool) : RE
  | cat (a b : RE) : RE
  | alt (a b : RE) : RE
  | rep (a : RE) (lo : Nat) (hi : Option Nat) (lz : Bool) : RE
  | look (r : RE) (neg : Bool) : RE
  | lookb (r : RE) (neg : Bool) : RE
  | bol : RE
  | eol : RE

/-- Backtracking matcher. `mat s fuel re pos k` tries to match `re` in `s`
starting at `pos` and calls the continuation `k` with the end position of
each candidate match, in Python's preference order, until `k` succeeds.
Lookarounds are atomic, as in Python. A repetition whose body matched the
empty string is not iterated further (Python's empty-loop guard). -/
def mat (s : List Nat) : Nat → RE → Nat → (Nat → Option Nat) → Option Nat
  | 0, _, _, _ => none
  | fuel + 1, re, pos, k =>
    match re with
    | .eps => k pos
    | .cls p =>
        match s.get? pos with
        | some c => if p c then k (pos + 1) else none
        | none => none
    | .cat a b => mat s fuel a pos (fun e => mat s fuel b e k)
    | .alt a b =>
        match mat s fuel a pos k with
        | some r => some r
        | none => mat s fuel b pos k
    | .rep a lo hi lz =>
        match lo with
        | l + 1 => mat s fuel a pos (fun e => mat s fuel (.rep a l (hi.map (· - 1)) lz) e k)
        | 0 =>
          match hi with
          | some 0 => k pos
          | _ =>
            if lz then
              match k pos with
              | some r => some r
              | none =>
                  mat s fuel a pos
                    (fun e => if e = pos then none
                      else mat s fuel (.rep a 0 (hi.map (· - 1)) lz) e k)
            else
              match mat s fuel a pos
                  (fun e => if e = pos then none
                    else mat s fuel (.rep a 0 (hi.map (· - 1)) lz) e k) with
              | some r => some r
              | none => k pos
    | .look r neg =>
        match mat s fuel r pos some with
        | some _ => if neg then none else k pos
        | none => if neg then k pos else none
    | .lookb r neg =>
        if (List.range (pos + 1)).any
            (fun j => (mat s fuel r j (fun e => if e = pos then some e else none)).isSome) then
          if neg then none else k pos
        else
          if neg then k pos else none
    | .bol => if pos = 0 ∨ s.get? (pos - 1) = some 10 then k pos else none
    | .eol => if pos = s.length ∨ s.get? pos = some 10 then k pos else none

/-- Fuel passed to the matcher by `finditer`; far above the depth any match
attempt on the strings evaluated in this development can reach. -/
def matchFuel : Nat := 1000000

/-- One step of `re.finditer` scanning: try the pattern at `pos`, yield the
match and resume after it (one character further for an empty match), or
advance one character. `tries` bounds the number of scan steps. -/
def findFrom (s : List Nat) (re : RE) : Nat → Nat → List (Nat × Nat)
  | 0, _ => []
  | tries + 1, pos =>
    if pos ≤ s.length then
      match mat s matchFuel re pos some with
      | some e =>
          if e = pos then (pos, e) :: findFrom s re tries (pos + 1)
          else (pos, e) :: findFrom s re tries e
      | none => findFrom s re tries (pos + 1)
    else []

/-- All matches of `re` in `s` as `(start, end)` pairs:
`re.finditer(re, s)`. -/
def findIter (s : List Nat) (re : RE) : List (Nat × Nat) :=
  findFrom s re (s.length + 1) 0

/-! ### Character classes of the pattern -/

/-- Python's `\s` (Unicode whitespace). -/
def pySpace (c : Nat) : Bool :=
  [9, 10, 11, 12, 13, 28, 29, 30, 31, 32, 133, 160, 5760, 8232, 8233, 8239, 8287, 12288].contains c
    || (decide (8192 ≤ c) && decide (c ≤ 8202))

/-- Python's `\w`, restricted to its ASCII fragment `[a-zA-Z0-9_]` (every
string this development evaluates the pattern on is ASCII, where the two
agree). -/
def pyWord (c : Nat) : Bool :=
  (decide (48 ≤ c) && decide (c ≤ 57)) || (decide (65 ≤ c) && decide (c ≤ 90))
    || (decide (97 ≤ c) && decide (c ≤ 122)) || c == 95

/-- Python's `\d`, ASCII fragment `[0-9]` (the evaluated strings are ASCII). -/
def pyDigit (c : Nat) : Bool := decide (48 ≤ c) && decide (c ≤ 57)

/-- The class `[a-zA-Z]`. -/
def asciiAlpha (c : Nat) : Bool :=
  (decide (65 ≤ c) && decide (c ≤ 90)) || (decide (97 ≤ c) && decide (c ≤ 122))

/-! ### Combinators used to transcribe the pattern -/

/-- A single literal character. -/
def chrRE (c : Nat) : RE := .cls (fun x => x == c)

/-- A character class listing its members, e.g. `[-*+•]`. -/
def oneOf (cs : List Nat) : RE := .cls (fun x => cs.contains x)

/-- A negated character class, e.g. `[^>]`. -/
def noneOf (cs : List Nat) : RE := .cls (fun x => !cs.contains x)

/-- A literal string, as a chain of literal characters. -/
def sLit : List Nat → RE
  | [] => .eps
  | c :: rest => .cat (chrRE c) (sLit rest)

/-- Greedy `r?`. -/
def optRE (r : RE) : RE := .rep r 0 (some 1) false

/-- Greedy `r*`. -/
def star (r : RE) : RE := .rep r 0 none false

/-- Greedy `r+`. -/
def plus (r : RE) : RE := .rep r 1 none false

/-- The any-character class: `.` under `re.DOTALL`, also `[\s\S]`. -/
def anyCh : RE := .cls (fun _ => true)

/-- The class `[^\r\n]`. -/
def notCRLF : RE := noneOf [13, 10]

/-- The pattern `\r?\n`. -/
def crlf : RE := .cat (optRE (chrRE 13)) (chrRE 10)

/-- The pattern `\r?\n?`. -/
def crOptLfOpt : RE := .cat (optRE (chrRE 13)) (optRE (chrRE 10))

/-- The group `(?:^|\r?\n)`. -/
def bolOrNewline : RE := .alt .bol crlf

/-! ### The segmenter pattern (`JinaTextSegmenter.get_pattern`)

Transcription notes. In the Python source the local `PUNCTUATION` is the
*unparenthesised* alternation `[.!?…。！？]|\.{3}|[…⁇-⁉]`, so
wherever it is spliced into an f-string its `|` extends to the enclosing
group: in `SENTENCE_END` the lookbehind attaches only to the third
alternative `[…⁇-⁉]`, and in `NOT_PUNCTUATION_SPACE` the
trailing `\s` likewise attaches only to that third alternative. The
transcription reproduces this exactly. Character classes are written with
code points (e.g. `[#*=-]` is `[35, 42, 61, 45]`). -/

/-- The class `[\s\]})>,\']` (`AVOID_AT_START`). -/
def AVOID_AT_START : RE := .cls (fun c => pySpace c || [93, 125, 41, 62, 44, 39].contains c)

/-- The class `[.!?…。！？]`, first alternative of `PUNCTUATION`. -/
def punctClass : RE := oneOf [46, 33, 63, 8230, 12290, 65281, 65311]

/-- The pattern `\.{3}`, second alternative of `PUNCTUATION`. -/
def dotDotDot : RE := .rep (chrRE 46) 3 (some 3) false

/-- The class `[…⁇-⁉]`, third alternative of `PUNCTUATION`. -/
def uniPunct : RE := .cls (fun c => c == 8230 || (decide (8263 ≤ c) && decide (c ≤ 8265)))

/-- `PUNCTUATION` as a self-contained alternation (as it appears inside the
lookahead groups `(?={PUNCTUATION})` and `(?={PUNCTUATION}|{QUOTE_END})`). -/
def PUNCTUATION : RE := .alt punctClass (.alt dotDotDot uniPunct)

/-- `QUOTE_END`: the group ``(?:'(?=`)|''(?=``))``. -/
def QUOTE_END : RE :=
  .alt (.cat (chrRE 39) (.look (chrRE 96) false))
    (.cat (sLit [39, 39]) (.look (sLit [96, 96]) false))

/-- `SENTENCE_END`, fully expanded:
``(?:[.!?…。！？]|\.{3}|[…⁇-⁉](?<![\s\]})>,\'](?=[.!?…。！？]|\.{3}|[…⁇-⁉]))|(?:'(?=`)|''(?=``)))(?=\S|$)``
(the lookbehind attaches to the `[…⁇-⁉]` alternative only). -/
def SENTENCE_END : RE :=
  .cat
    (.alt punctClass
      (.alt dotDotDot
        (.alt
          (.cat uniPunct (.lookb (.cat AVOID_AT_START (.look PUNCTUATION false)) true))
          QUOTE_END)))
    (.look (.alt (.cls (fun c => !pySpace c)) .eol) false)

/-- `SENTENCE_BOUNDARY`: `(?:{SENTENCE_END}|(?=[\r\n]|$))`. -/
def SENTENCE_BOUNDARY : RE :=
  .alt SENTENCE_END (.look (.alt (oneOf [13, 10]) .eol) false)

/-- `LOOKAHEAD_PATTERN`: `(?:(?!{SENTENCE_END}).){1,100}{SENTENCE_END}`
(`LOOKAHEAD_RANGE = 100`; `.` under `re.DOTALL`). -/
def LOOKAHEAD_PATTERN : RE :=
  .cat (.rep (.cat (.look SENTENCE_END true) anyCh) 1 (some 100) false) SENTENCE_END

/-- `NOT_PUNCTUATION_SPACE`: `(?!{PUNCTUATION}\s)` expands to
`(?![.!?…。！？]|\.{3}|[…⁇-⁉]\s)` — the `\s` attaches to the
third alternative only. -/
def NOT_PUNCTUATION_SPACE : RE :=
  .look (.alt punctClass (.alt dotDotDot (.cat uniPunct (.cls pySpace)))) true

/-- `_get_sentence_pattern(max_length)`:
`{NOT_PUNCTUATION_SPACE}(?:[^\r\n]{1,max}{SENTENCE_BOUNDARY}|[^\r\n]{1,max}(?={PUNCTUATION}|{QUOTE_END})(?:{LOOKAHEAD_PATTERN})?){AVOID_AT_START}*`. -/
def get_sentence_pattern (maxLength : Nat) : RE :=
  .cat NOT_PUNCTUATION_SPACE
    (.cat
      (.alt
        (.cat (.rep notCRLF 1 (some maxLength) false) SENTENCE_BOUNDARY)
        (.cat
          (.cat (.rep notCRLF 1 (some maxLength) false)
            (.look (.alt PUNCTUATION QUOTE_END) false))
          (optRE LOOKAHEAD_PATTERN)))
      (star AVOID_AT_START))

/-- The class `[1-6]` of the HTML heading tags. -/
def digit16 : RE := .cls (fun c => decide (49 ≤ c) && decide (c ≤ 54))

/-- Alternative 1, headings:
`(?:^(?:[#*=-]{1,7}|\w[^\r\n]{0,200}\r?\n[-=]{2,200}|<h[1-6][^>]{0,100}>)[^\r\n]{1,200}(?:<\/h[1-6]>)?(?:\r?\n|$))`. -/
def headingPat : RE :=
  .cat .bol
    (.cat
      (.alt (.rep (oneOf [35, 42, 61, 45]) 1 (some 7) false)
        (.alt
          (.cat (.cls pyWord)
            (.cat (.rep notCRLF 0 (some 200) false)
              (.cat crlf (.rep (oneOf [45, 61]) 2 (some 200) false))))
          (.cat (sLit [60, 104])
            (.cat digit16 (.cat (.rep (noneOf [62]) 0 (some 100) false) (chrRE 62))))))
      (.cat (.rep notCRLF 1 (some 200) false)
        (.cat (optRE (.cat (sLit [60, 47, 104]) (.cat digit16 (chrRE 62))))
          (.alt crlf .eol))))

/-- Alternative (citations): `(?:\[[0-9]+\][^\r\n]{1,800})`. -/
def citationPat : RE :=
  .cat (chrRE 91)
    (.cat (plus (.cls pyDigit)) (.cat (chrRE 93) (.rep notCRLF 1 (some 800) false)))

/-- The class `[ \t]`. -/
def spaceTab : RE := oneOf [32, 9]

/-- The list-marker group `(?:[-*+•]|\d{1,3}\.\w\.|\[[ xX]\])`. -/
def listBullet : RE :=
  .alt (oneOf [45, 42, 43, 8226])
    (.alt
      (.cat (.rep (.cls pyDigit) 1 (some 3) false)
        (.cat (chrRE 46) (.cat (.cls pyWord) (chrRE 46))))
      (.cat (chrRE 91) (.cat (oneOf [32, 120, 88]) (chrRE 93))))

/-- A nested list line `\r?\n[ \t]{2,5}(?:bullet)[ \t]+sentence(200)`. -/
def listNested2 : RE :=
  .cat crlf
    (.cat (.rep spaceTab 2 (some 5) false)
      (.cat listBullet (.cat (plus spaceTab) (get_sentence_pattern 200))))

/-- A deeper nested list line `\r?\n[ \t]{4,7}(?:bullet)[ \t]+sentence(200)`. -/
def listNested4 : RE :=
  .cat crlf
    (.cat (.rep spaceTab 4 (some 7) false)
      (.cat listBullet (.cat (plus spaceTab) (get_sentence_pattern 200))))

/-- Alternative 2, list items (`MAX_LIST_ITEM_LENGTH = 200`,
`MAX_NESTED_LIST_ITEMS = 6`, `MAX_LIST_INDENT_SPACES = 7`). -/
def listItemPat : RE :=
  .cat bolOrNewline
    (.cat (.rep spaceTab 0 (some 3) false)
      (.cat listBullet
        (.cat (plus spaceTab)
          (.cat (get_sentence_pattern 200)
            (optRE
              (.cat (.rep listNested2 0 (some 6) false)
                (.rep listNested4 0 (some 6) false)))))))

/-- Alternative 3, block quotes:
`(?:(?:^>(?:>|\s{2,}){0,2}sentence(200)\r?\n?){1,15})`. -/
def blockquotePat : RE :=
  .rep
    (.cat .bol
      (.cat (chrRE 62)
        (.cat (.rep (.alt (chrRE 62) (.rep (.cls pySpace) 2 none false)) 0 (some 2) false)
          (.cat (get_sentence_pattern 200) crOptLfOpt))))
    1 (some 15) false

/-- The fence `(?:```|~~~)`. -/
def fencePat : RE := .alt (sLit [96, 96, 96]) (sLit [126, 126, 126])

/-- The indent `(?: {4}|\t)` of indented code. -/
def indentPat : RE := .alt (sLit [32, 32, 32, 32]) (chrRE 9)

/-- Alternative 4, code blocks (fenced, indented, HTML `pre`/`code`);
`MAX_CODE_BLOCK_LENGTH = 1500`, `MAX_CODE_LANGUAGE_LENGTH = 20`,
`MAX_INDENTED_CODE_LINES = 20`, inner bodies lazy (`{0,n}?`). -/
def codeBlockPat : RE :=
  .alt
    (.cat bolOrNewline
      (.cat fencePat
        (.cat (optRE (.rep (.cls pyWord) 0 (some 20) false))
          (.cat crlf
            (.cat (.rep anyCh 0 (some 1500) true) (.cat fencePat crOptLfOpt))))))
    (.alt
      (.cat bolOrNewline
        (.cat indentPat
          (.cat (.rep notCRLF 0 (some 200) false)
            (.cat
              (.rep (.cat crlf (.cat indentPat (.rep notCRLF 0 (some 200) false))) 0 (some 20) false)
              crOptLfOpt))))
      (.cat (sLit [60, 112, 114, 101, 62])
        (.cat (optRE (sLit [60, 99, 111, 100, 101, 62]))
          (.cat (.rep anyCh 0 (some 1500) true)
            (.cat (optRE (sLit [60, 47, 99, 111, 100, 101, 62]))
              (sLit [60, 47, 112, 114, 101, 62]))))))

/-- Alternative 5, tables (`MAX_TABLE_CELL_LENGTH = 200`,
`MAX_TABLE_ROWS = 20`, `MAX_HTML_TABLE_LENGTH = 2000`); the `(?:^|\r?\n)`
prefix covers both the Markdown and the `<table>` branch. -/
def tablePat : RE :=
  .cat bolOrNewline
    (.alt
      (.cat (chrRE 124)
        (.cat (.rep notCRLF 0 (some 200) false)
          (.cat (chrRE 124)
            (.cat
              (.rep
                (.cat crlf
                  (.cat (chrRE 124) (.cat (.rep (oneOf [45, 58]) 1 (some 200) false) (chrRE 124))))
                0 (some 1) false)
              (.rep
                (.cat crlf
                  (.cat (chrRE 124) (.cat (.rep notCRLF 0 (some 200) false) (chrRE 124))))
                0 (some 20) false)))))
      (.cat (sLit [60, 116, 97, 98, 108, 101, 62])
        (.cat (.rep anyCh 0 (some 2000) true) (sLit [60, 47, 116, 97, 98, 108, 101, 62]))))

/-- Alternative 6, horizontal rules: `(?:^(?:[-*_]){3,}\s*$|<hr\s*\/?>)`. -/
def horizontalRulePat : RE :=
  .alt
    (.cat .bol (.cat (.rep (oneOf [45, 42, 95]) 3 none false) (.cat (star (.cls pySpace)) .eol)))
    (.cat (sLit [60, 104, 114]) (.cat (star (.cls pySpace)) (.cat (optRE (chrRE 47)) (chrRE 62))))

/-- Alternative 10 (placed 8th), standalone lines:
`(?![AVOID])(?:^(?:<[a-zA-Z][^>]{0,100}>)?sentence(800)(?:<\/[a-zA-Z]+>)?(?:\r?\n|$))`. -/
def standalonePat : RE :=
  .cat (.look AVOID_AT_START true)
    (.cat .bol
      (.cat
        (optRE
          (.cat (chrRE 60)
            (.cat (.cls asciiAlpha) (.cat (.rep (noneOf [62]) 0 (some 100) false) (chrRE 62)))))
        (.cat (get_sentence_pattern 800)
          (.cat (optRE (.cat (sLit [60, 47]) (.cat (plus (.cls asciiAlpha)) (chrRE 62))))
            (.alt crlf .eol)))))

/-- Alternative 7 (placed 9th), sentences: `(?![AVOID])sentence(600)`. -/
def sentencePat : RE := .cat (.look AVOID_AT_START true) (get_sentence_pattern 600)

/-- Alternative 8 (placed 10th), quoted text, parentheticals, brackets,
inline math and inline code (`MAX_QUOTED_TEXT_LENGTH = 300`,
`MAX_PARENTHETICAL_CONTENT_LENGTH = 200`, `MAX_NESTED_PARENTHESES = 5`,
`MAX_MATH_INLINE_LENGTH = 100`). -/
def quotedPat : RE :=
  .alt
    (.cat (.lookb (.cls pyWord) true)
      (.cat (sLit [34, 34, 34])
        (.cat (.rep (noneOf [34]) 0 (some 300) false)
          (.cat (sLit [34, 34, 34]) (.look (.cls pyWord) true)))))
    (.alt
      (.cat (.lookb (.cls pyWord) true)
        (.cat (chrRE 39)
          (.cat (.rep notCRLF 0 (some 300) false) (.cat (chrRE 39) (.look (.cls pyWord) true)))))
      (.alt
        (.cat (.lookb (.cls pyWord) true)
          (.cat (chrRE 34)
            (.cat (.rep notCRLF 0 (some 300) false) (.cat (chrRE 34) (.look (.cls pyWord) true)))))
        (.alt
          (.cat (.lookb (.cls pyWord) true)
            (.cat (chrRE 96)
              (.cat (.rep notCRLF 0 (some 300) false) (.cat (chrRE 96) (.look (.cls pyWord) true)))))
          (.alt
            (.cat (.lookb (.cls pyWord) true)
              (.cat (sLit [96, 96])
                (.cat (.rep notCRLF 0 (some 300) false)
                  (.cat (sLit [39, 39]) (.look (.cls pyWord) true)))))
            (.alt
              (.cat (chrRE 40)
                (.cat (.rep (noneOf [13, 10, 40, 41]) 0 (some 200) false)
                  (.cat
                    (.rep
                      (.cat (chrRE 40)
                        (.cat (.rep (noneOf [13, 10, 40, 41]) 0 (some 200) false)
                          (.cat (chrRE 41) (.rep (noneOf [13, 10, 40, 41]) 0 (some 200) false))))
                      0 (some 5) false)
                    (chrRE 41))))
              (.alt
                (.cat (chrRE 91)
                  (.cat (.rep (noneOf [13, 10, 91, 93]) 0 (some 200) false)
                    (.cat
                      (.rep
                        (.cat (chrRE 91)
                          (.cat (.rep (noneOf [13, 10, 91, 93]) 0 (some 200) false)
                            (.cat (chrRE 93) (.rep (noneOf [13, 10, 91, 93]) 0 (some 200) false))))
                        0 (some 5) false)
                      (chrRE 93))))
                (.alt
                  (.cat (chrRE 36) (.cat (.rep (noneOf [13, 10, 36]) 0 (some 100) false) (chrRE 36)))
                  (.cat (chrRE 96)
                    (.cat (.rep (noneOf [96, 13, 10]) 0 (some 100) false) (chrRE 96))))))))))

/-- Alternative 9 (placed 11th), paragraphs:
`(?![AVOID])(?:(?:^|\r?\n\r?\n)(?:<p>)?sentence(1000)(?:<\/p>)?(?=\r?\n\r?\n|$))`. -/
def paragraphPat : RE :=
  .cat (.look AVOID_AT_START true)
    (.cat (.alt .bol (.cat crlf crlf))
      (.cat (optRE (sLit [60, 112, 62]))
        (.cat (get_sentence_pattern 1000)
          (.cat (optRE (sLit [60, 47, 112, 62]))
            (.look (.alt (.cat crlf crlf) .eol) false)))))

/-- Alternative 11 (placed 12th), HTML-like tags:
`(?:<[a-zA-Z][^>]{0,100}(?:[\s\S]{0,1000}?<\/[a-zA-Z]+>|\s*\/>))`. -/
def htmlTagPat : RE :=
  .cat (chrRE 60)
    (.cat (.cls asciiAlpha)
      (.cat (.rep (noneOf [62]) 0 (some 100) false)
        (.alt
          (.cat (.rep anyCh 0 (some 1000) true)
            (.cat (sLit [60, 47]) (.cat (plus (.cls asciiAlpha)) (chrRE 62))))
          (.cat (star (.cls pySpace)) (.cat (optRE (chrRE 47)) (chrRE 62))))))

/-- Alternative 12 (placed 13th), LaTeX-style math:
`(?:(?:\$\$[\s\S]{0,500}?\$\$)|(?:\$[^\$\r\n]{0,100}\$))`. -/
def mathPat : RE :=
  .alt
    (.cat (sLit [36, 36]) (.cat (.rep anyCh 0 (some 500) true) (sLit [36, 36])))
    (.cat (chrRE 36) (.cat (.rep (noneOf [36, 13, 10]) 0 (some 100) false) (chrRE 36)))

/-- Alternative 14 (placed last), fallback: `(?![AVOID])sentence(800)`. -/
def fallbackPat : RE := .cat (.look AVOID_AT_START true) (get_sentence_pattern 800)

/-- `get_pattern`: the `"|".join` of the fourteen alternatives, in source
order. -/
def get_pattern : RE :=
  .alt headingPat
    (.alt citationPat
      (.alt listItemPat
        (.alt blockquotePat
          (.alt codeBlockPat
            (.alt tablePat
              (.alt horizontalRulePat
                (.alt standalonePat
                  (.alt sentencePat
                    (.alt quotedPat
                      (.alt paragraphPat
                        (.alt htmlTagPat (.alt mathPat fallbackPat))))))))))))

/-- The lookup of the global name `re` in module `rag`: `rag.py` imports
only `asyncio`, `logging`, `base64`, `os`, `functools.partial`, `typing`
and `elasticsearch` (lines 1–7) and never imports or defines `re`, so
evaluating `re` inside the comprehension at line 288 raises `NameError`
before any matching happens. Were the import present, the name would
resolve to the module whose `finditer(pattern, text, ...)` yields the
match spans modelled by `findIter`. -/
def reGlobal : Except String (List Nat → RE → List (Nat × Nat)) :=
  .error "NameError: name re is not defined"

/-- The chunk list the comprehension at line 288 builds from the finditer
spans, with `content = match.group()`, `length = len(match.group())`,
`start = match.start()`, `end = match.end()` and `index = i`. -/
def chunksOf (s : List Nat) (spans : List (Nat × Nat)) : List Chunk :=
  spans.enum.map fun p =>
    { content := (s.drop p.2.1).take (p.2.2 - p.2.1)
      index := p.1
      length := p.2.2 - p.2.1
      start := p.2.1
      stop := p.2.2 }

/-- The chunk list the segmentation stage of `split_text` would build were
`re` in scope: the spans of `get_pattern` over the input. The staged code
never reaches this computation, because the lookup `reGlobal` raises
first; it records what the pattern itself denotes. -/
def segmentText (s : List Nat) : List Chunk :=
  chunksOf s (findIter s get_pattern)

/-- `JinaTextSegmenter.split_text` (`rag.py`, lines 277–311): build the
pattern with `get_pattern`, evaluate the chunk comprehension — whose first
step, resolving the global name `re` (see `reGlobal`), raises `NameError`
on every input — and, unreachably, run the short-chunk merge pass on the
resulting chunks. -/
def split_text (s : List Nat) : Except String (List Chunk) := do
  let finditer ← reGlobal
  mergeChunks (chunksOf s (finditer s get_pattern))

/-- A sample span above the merge threshold, used to instantiate theorems. -/
def sampleLong : Chunk := { content := [97], index := 0, length := 350, start := 0, stop := 350 }

/-- A sample span below the merge threshold, used to instantiate theorems. -/
def sampleShort : Chunk := { content := [98], index := 1, length := 10, start := 350, stop := 360 }

/-! ## Theorems

First the merge pass (claims C2, C7, C9, C10), then rank fusion
(C1, C4, C8), the orchestrator (C5, C6) and the segmenter (C3). -/


theorem mergeLeftAt_eq {result : List Chunk} {l : Chunk} (h : result.getLast? = some l)
    (chunk : Chunk) :
    mergeLeftAt result chunk = result.dropLast ++ [mergeLeftInto l chunk] := by
  simp [mergeLeftAt, h]

theorem exists_getLast?_of_ne_nil {l : List Chunk} (h : l ≠ []) : ∃ a, l.getLast? = some a := by
  cases hg : l.getLast? with
  | none => exact absurd (List.getLast?_eq_none_iff.mp hg) h
  | some a => exact ⟨a, rfl⟩

theorem not_isEmpty_ne_nil {l : List Chunk} (h : ¬l.isEmpty = true) : l ≠ [] := by
  cases l with
  | nil => simp [List.isEmpty] at h
  | cons a as => exact List.cons_ne_nil a as

theorem mergeLoop_lengths (m I : Nat) :
    ∀ (n : Nat) (chunks result out : List Chunk), chunks.length ≤ n →
      mergeLoop m I result chunks = .ok out →
      (∀ c ∈ result, m ≤ c.length) → ∀ c ∈ out, m ≤ c.length := by
  intro n
  induction n with
  | zero =>
    intro chunks result out h heq hres
    have : chunks = [] := List.eq_nil_of_length_eq_zero (Nat.le_zero.mp h)
    subst this
    rw [mergeLoop] at heq
    cases heq
    exact hres
  | succ n ih =>
    intro chunks result out h heq hres
    match chunks with
    | [] =>
      rw [mergeLoop] at heq
      cases heq
      exact hres
    | chunk :: rest =>
      have hr : rest.length ≤ n := by simpa using h
      rw [mergeLoop] at heq
      dsimp only at heq
      split_ifs at heq with h1 h2 h3 h4 h5
      · refine ih rest _ out hr heq ?_
        intro c hc
        rcases List.mem_append.mp hc with hc | hc
        · exact hres c hc
        · rcases List.mem_singleton.mp hc with rfl
          exact h1
      · -- merge-left
        obtain ⟨l, hl⟩ := exists_getLast?_of_ne_nil (not_isEmpty_ne_nil h4)
        rw [mergeLeftAt_eq hl] at heq
        refine ih rest _ out hr heq ?_
        intro c hc
        rcases List.mem_append.mp hc with hc | hc
        · exact hres c (List.Sublist.subset (List.dropLast_sublist result) hc)
        · rcases List.mem_singleton.mp hc with rfl
          have hlm : l ∈ result := by
            rw [← List.dropLast_append_getLast? l hl]
            simp
          calc m ≤ l.length := hres l hlm
            _ ≤ l.length + chunk.length := Nat.le_add_right _ _
      · exact ih _ _ out (by simpa using hr) heq hres
      · exact ih rest _ out hr heq hres



theorem chunksOrdered_sublist {l₁ l₂ : List Chunk} (hs : l₁.Sublist l₂)
    (h : chunksOrdered l₂) : chunksOrdered l₁ :=
  ⟨fun c hc => h.1 c (hs.subset hc), h.2.sublist hs⟩

theorem chunksOrdered_collapse (res rest : List Chunk) (a b c : Chunk)
    (h1 : c.start = a.start) (h2 : c.stop = b.stop)
    (h : chunksOrdered (res ++ a :: b :: rest)) : chunksOrdered (res ++ c :: rest) := by
  obtain ⟨hm, hp⟩ := h
  rw [List.pairwise_append] at hp
  obtain ⟨hpres, hpcons, hcross⟩ := hp
  rw [List.pairwise_cons] at hpcons
  obtain ⟨hab, hpcons⟩ := hpcons
  rw [List.pairwise_cons] at hpcons
  obtain ⟨hbrest, hprest⟩ := hpcons
  have hastop : a.stop ≤ b.start := hab b (by simp)
  have hasb : a.start ≤ a.stop := hm a (by simp)
  have hbsb : b.start ≤ b.stop := hm b (by simp)
  constructor
  · intro x hx
    rcases List.mem_append.mp hx with hx | hx
    · exact hm x (by simp [hx])
    · rcases List.mem_cons.mp hx with rfl | hx
      · rw [h1, h2]
        exact le_trans hasb (le_trans hastop hbsb)
      · exact hm x (by simp [hx])
  · rw [List.pairwise_append]
    refine ⟨hpres, ?_, ?_⟩
    · rw [List.pairwise_cons]
      refine ⟨?_, hprest⟩
      intro x hx
      rw [h2]
      exact hbrest x hx
    · intro x hx y hy
      rcases List.mem_cons.mp hy with rfl | hy
      · rw [h1]
        exact hcross x hx a (by simp)
      · exact hcross x hx y (by simp [hy])

theorem chunksOrdered_replace (res rest : List Chunk) (a c : Chunk)
    (h1 : c.start = a.start) (h2 : c.stop = a.stop)
    (h : chunksOrdered (res ++ a :: rest)) : chunksOrdered (res ++ c :: rest) := by
  obtain ⟨hm, hp⟩ := h
  rw [List.pairwise_append] at hp
  obtain ⟨hpres, hpcons, hcross⟩ := hp
  rw [List.pairwise_cons] at hpcons
  obtain ⟨harest, hprest⟩ := hpcons
  constructor
  · intro x hx
    rcases List.mem_append.mp hx with hx | hx
    · exact hm x (by simp [hx])
    · rcases List.mem_cons.mp hx with rfl | hx
      · rw [h1, h2]
        exact hm a (by simp)
      · exact hm x (by simp [hx])
  · rw [List.pairwise_append]
    refine ⟨hpres, ?_, ?_⟩
    · rw [List.pairwise_cons]
      refine ⟨?_, hprest⟩
      intro x hx
      rw [h2]
      exact harest x hx
    · intro x hx y hy
      rcases List.mem_cons.mp hy with rfl | hy
      · rw [h1]
        exact hcross x hx a (by simp)
      · exact hcross x hx y (by simp [hy])



theorem mergeLoop_ordered (m I : Nat) :
    ∀ (n : Nat) (chunks result out : List Chunk), chunks.length ≤ n →
      mergeLoop m I result chunks = .ok out →
      chunksOrdered (result ++ chunks) → chunksOrdered out := by
  intro n
  induction n with
  | zero =>
    intro chunks result out h heq hord
    have : chunks = [] := List.eq_nil_of_length_eq_zero (Nat.le_zero.mp h)
    subst this
    rw [mergeLoop] at heq
    cases heq
    simpa using hord
  | succ n ih =>
    intro chunks result out h heq hord
    match chunks with
    | [] =>
      rw [mergeLoop] at heq
      cases heq
      simpa using hord
    | chunk :: rest =>
      have hr : rest.length ≤ n := by simpa using h
      rw [mergeLoop] at heq
      dsimp only at heq
      split_ifs at heq with h1 h2 h3 h4 h5
      · -- keep
        refine ih rest _ out hr heq ?_
        rw [List.append_assoc, List.singleton_append]
        exact chunksOrdered_replace result rest chunk { chunk with index := result.length } rfl rfl hord
      · -- merge-left
        obtain ⟨l, hl⟩ := exists_getLast?_of_ne_nil (not_isEmpty_ne_nil h4)
        rw [mergeLeftAt_eq hl] at heq
        refine ih rest _ out hr heq ?_
        rw [List.append_assoc, List.singleton_append]
        have e1 : result = result.dropLast ++ [l] := (List.dropLast_append_getLast? l hl).symm
        rw [e1, List.append_assoc, List.singleton_append] at hord
        exact chunksOrdered_collapse result.dropLast rest l chunk (mergeLeftInto l chunk) rfl rfl hord
      · -- merge-right
        cases rest with
        | nil => simp [List.isEmpty] at h5
        | cons r rest' =>
          simp only [List.modifyHead] at heq
          refine ih _ _ out (by simpa using hr) heq ?_
          exact chunksOrdered_collapse result rest' chunk r (mergeRightInto chunk r) rfl rfl hord
      · -- drop
        refine ih rest _ out hr heq ?_
        refine chunksOrdered_sublist ?_ hord
        exact List.Sublist.append_left (List.sublist_cons_self _ _) result



theorem mergeLoop_allShort (m I : Nat) (hmI : m ≤ I) :
    ∀ (n : Nat) (chunks : List Chunk), chunks.length ≤ n → totalLen chunks < m →
      mergeLoop m I [] chunks = .ok [] := by
  intro n
  induction n with
  | zero =>
    intro chunks h htot
    have : chunks = [] := List.eq_nil_of_length_eq_zero (Nat.le_zero.mp h)
    subst this
    rw [mergeLoop]
  | succ n ih =>
    intro chunks h htot
    match chunks with
    | [] => rw [mergeLoop]
    | chunk :: rest =>
      have hchunk : chunk.length ≤ totalLen (chunk :: rest) := by
        simp [totalLen]
      have h1 : ¬m ≤ chunk.length :=
        Nat.not_le.mpr (Nat.lt_of_le_of_lt hchunk htot)
      rw [mergeLoop]
      dsimp only
      cases rest with
      | nil =>
        have e1 : (([] : List Chunk).getLast?).elim I Chunk.length = I := rfl
        have e2 : (([] : List Chunk).head?).elim I Chunk.length = I := rfl
        rw [if_neg h1, e1, e2]
        rw [if_neg (by simp : ¬(I < I ∨ I < I))]
        rw [mergeLoop]
      | cons r rest' =>
        have hrI : r.length < I := by
          have : r.length ≤ totalLen (chunk :: r :: rest') := by
            simp [totalLen]
            calc r.length ≤ r.length + (rest'.map Chunk.length).sum := Nat.le_add_right _ _
              _ ≤ chunk.length + (r.length + (rest'.map Chunk.length).sum) := Nat.le_add_left _ _
          exact Nat.lt_of_le_of_lt this (Nat.lt_of_lt_of_le htot hmI)
        have e1 : (([] : List Chunk).getLast?).elim I Chunk.length = I := rfl
        have e2 : (((r :: rest') : List Chunk).head?).elim I Chunk.length = r.length := rfl
        rw [if_neg h1, e1, e2]
        rw [if_pos (Or.inr hrI)]
        rw [if_neg (Nat.not_le.mpr hrI)]
        rw [if_neg (by simp : ¬((r :: rest').isEmpty = true))]
        simp only [List.modifyHead]
        refine ih _ (by simpa using h) ?_
        have : totalLen (mergeRightInto chunk r :: rest') = totalLen (chunk :: r :: rest') := by
          simp [totalLen, mergeRightInto]
          ring
        rw [this]
        exact htot



theorem mergeLoop_ok (m I : Nat) :
    ∀ (n : Nat) (chunks result : List Chunk), chunks.length ≤ n →
      ∃ out, mergeLoop m I result chunks = .ok out := by
  intro n
  induction n with
  | zero =>
    intro chunks result h
    have : chunks = [] := List.eq_nil_of_length_eq_zero (Nat.le_zero.mp h)
    subst this
    exact ⟨result, by rw [mergeLoop]⟩
  | succ n ih =>
    intro chunks result h
    match chunks with
    | [] => exact ⟨result, by rw [mergeLoop]⟩
    | chunk :: rest =>
      have hr : rest.length ≤ n := by simpa using h
      rw [mergeLoop]
      dsimp only
      split_ifs with h1 h2 h3 h4 h5
      · exact ih rest _ hr
      · exfalso
        have hres : result = [] := by
          cases result with
          | nil => rfl
          | cons a as => simp [List.isEmpty] at h4
        subst hres
        have hlL : (([] : List Chunk).getLast?).elim I Chunk.length = I := rfl
        rw [hlL] at h2 h3
        rcases h2 with h2 | h2
        · exact Nat.lt_irrefl _ h2
        · exact Nat.lt_irrefl _ (Nat.lt_of_le_of_lt h3 h2)
      · exact ih rest _ hr
      · exfalso
        have hrest : rest = [] := by
          cases rest with
          | nil => rfl
          | cons a as => simp [List.isEmpty] at h5
        subst hrest
        have hrL : (([] : List Chunk).head?).elim I Chunk.length = I := rfl
        rw [hrL] at h2 h3
        rcases h2 with h2 | h2
        · exact h3 (Nat.le_of_lt h2)
        · exact Nat.lt_irrefl _ h2
      · exact ih _ _ (by simpa using hr)
      · exact ih rest _ hr

theorem chain'_or_of_forall {l : List Chunk} (P : Chunk → Prop) (h : ∀ c ∈ l, P c) :
    l.Chain' (fun a b => P a ∨ P b) := by
  induction l with
  | nil => simp
  | cons a t iht =>
    cases t with
    | nil => simp
    | cons b t' =>
      rw [List.chain'_cons]
      exact ⟨Or.inl (h a (by simp)), iht (fun c hc => h c (by simp [hc]))⟩

/-- C2: the merger preserves left-to-right document order, and, after
merging, every surviving span has length at least
`MAX_SENTENCE_LENGTH // 2` — in particular the disjunct "or it is the sole
span" holds trivially, and no two adjacent surviving spans are both below
the threshold. -/
theorem C2_merger_order_and_threshold (chunks out : List Chunk)
    (heq : mergeChunks chunks = .ok out) (hord : chunksOrdered chunks) :
    chunksOrdered out ∧
    (∀ c ∈ out, MAX_SENTENCE_LENGTH / 2 ≤ c.length ∨ out = [c]) ∧
    out.Chain' (fun a b =>
      MAX_SENTENCE_LENGTH / 2 ≤ a.length ∨ MAX_SENTENCE_LENGTH / 2 ≤ b.length) := by
  have hlen : ∀ c ∈ out, MAX_SENTENCE_LENGTH / 2 ≤ c.length :=
    mergeLoop_lengths _ _ chunks.length chunks [] out (Nat.le_refl _) heq (by simp)
  refine ⟨?_, fun c hc => Or.inl (hlen c hc), chain'_or_of_forall _ hlen⟩
  exact mergeLoop_ordered _ _ chunks.length chunks [] out (Nat.le_refl _) heq (by simpa using hord)

/-- C9: the merge pass never raises (it always returns `ok`), and a short
span with no span already placed to its left and no original span to its
right is silently dropped. -/
theorem C9_no_neighbor_dropped_no_raise :
    (∀ chunks : List Chunk, ∃ out, mergeChunks chunks = .ok out) ∧
    (∀ c : Chunk, c.length < MAX_SENTENCE_LENGTH / 2 →
      mergeLoop (MAX_SENTENCE_LENGTH / 2) 10000000 [] [c] = .ok []) := by
  constructor
  · intro chunks
    exact mergeLoop_ok _ _ chunks.length chunks [] (Nat.le_refl _)
  · intro c hc
    rw [mergeLoop]
    dsimp only
    have e1 : (([] : List Chunk).getLast?).elim 10000000 Chunk.length = 10000000 := rfl
    have e2 : (([] : List Chunk).head?).elim 10000000 Chunk.length = 10000000 := rfl
    rw [if_neg (Nat.not_le.mpr hc), e1, e2]
    rw [if_neg (by simp : ¬(10000000 < 10000000 ∨ 10000000 < 10000000))]
    rw [mergeLoop]

/-- C10: every chunk in the merged output has length at least
`MAX_SENTENCE_LENGTH // 2 = 300` (no exception for a sole span), and a
non-empty span sequence of total length below the threshold merges to the
empty output — the text is silently discarded. -/
theorem C10_output_min_length_and_discard (chunks out : List Chunk)
    (_hfin : ∀ c ∈ chunks, c.length < 10000000)
    (heq : mergeChunks chunks = .ok out) :
    MAX_SENTENCE_LENGTH / 2 = 300 ∧
    (∀ c ∈ out, MAX_SENTENCE_LENGTH / 2 ≤ c.length) ∧
    (chunks ≠ [] → totalLen chunks < MAX_SENTENCE_LENGTH / 2 → out = []) := by
  refine ⟨rfl, mergeLoop_lengths _ _ chunks.length chunks [] out (Nat.le_refl _) heq (by simp), ?_⟩
  intro _ htot
  have h0 := mergeLoop_allShort (MAX_SENTENCE_LENGTH / 2) 10000000 (by norm_num [MAX_SENTENCE_LENGTH])
    chunks.length chunks (Nat.le_refl _) htot
  rw [mergeChunks] at heq
  rw [h0] at heq
  exact (Except.ok.inj heq).symm

/-- C7: a short span with at least one neighbour (of genuine, below-sentinel
length) is merged into the neighbour of smaller length, an absent neighbour
counting as infinite (`INF = 10000000`), ties broken toward the left;
merge-left appends the content to the left neighbour, adds the length and
moves its `end`; merge-right prepends the content to the next original
span, adds the length, moves its `start`, and the next iteration of the
loop sees the updated span. -/
theorem C7_short_span_merge_policy (result : List Chunk) (chunk : Chunk) (rest : List Chunk)
    (hshort : chunk.length < MAX_SENTENCE_LENGTH / 2)
    (hleftFin : ∀ l, result.getLast? = some l → l.length < 10000000)
    (hrightFin : ∀ r, rest.head? = some r → r.length < 10000000)
    (hnb : result ≠ [] ∨ rest ≠ []) :
    (((result.getLast?).elim 10000000 Chunk.length ≤ (rest.head?).elim 10000000 Chunk.length) →
        ∃ l, result.getLast? = some l ∧
          mergeLoop (MAX_SENTENCE_LENGTH / 2) 10000000 result (chunk :: rest) =
            mergeLoop (MAX_SENTENCE_LENGTH / 2) 10000000
              (result.dropLast ++ [mergeLeftInto l chunk]) rest) ∧
    (((rest.head?).elim 10000000 Chunk.length < (result.getLast?).elim 10000000 Chunk.length) →
        ∃ r rest', rest = r :: rest' ∧
          mergeLoop (MAX_SENTENCE_LENGTH / 2) 10000000 result (chunk :: rest) =
            mergeLoop (MAX_SENTENCE_LENGTH / 2) 10000000 result
              (mergeRightInto chunk r :: rest')) := by
  have hcond : (result.getLast?).elim 10000000 Chunk.length < 10000000 ∨
      (rest.head?).elim 10000000 Chunk.length < 10000000 := by
    rcases hnb with hnb | hnb
    · obtain ⟨l, hl⟩ := exists_getLast?_of_ne_nil hnb
      exact Or.inl (by rw [hl]; exact hleftFin l hl)
    · cases rest with
      | nil => exact absurd rfl hnb
      | cons r rest' =>
        refine Or.inr ?_
        have hr : (r :: rest').head? = some r := rfl
        rw [hr]
        exact hrightFin r hr
  constructor
  · intro h3
    have hne : result ≠ [] := by
      intro hres
      subst hres
      have e1 : (([] : List Chunk).getLast?).elim 10000000 Chunk.length = 10000000 := rfl
      rw [e1] at h3 hcond
      rcases hcond with hc | hc
      · exact Nat.lt_irrefl _ hc
      · exact Nat.lt_irrefl _ (Nat.lt_of_le_of_lt h3 hc)
    obtain ⟨l, hl⟩ := exists_getLast?_of_ne_nil hne
    refine ⟨l, hl, ?_⟩
    rw [mergeLoop]
    dsimp only
    rw [if_neg (Nat.not_le.mpr hshort), if_pos hcond, if_pos h3]
    rw [if_neg (by simp [List.isEmpty_iff]; exact hne : ¬(result.isEmpty = true))]
    rw [mergeLeftAt_eq hl]
  · intro h3
    cases rest with
    | nil =>
      exfalso
      have e2 : (([] : List Chunk).head?).elim 10000000 Chunk.length = 10000000 := rfl
      rw [e2] at h3
      rcases hcond with hc | hc
      · exact Nat.lt_asymm h3 hc
      · rw [e2] at hc
        exact Nat.lt_irrefl _ hc
    | cons r rest' =>
      refine ⟨r, rest', rfl, ?_⟩
      rw [mergeLoop]
      dsimp only
      rw [if_neg (Nat.not_le.mpr hshort), if_pos hcond, if_neg (Nat.not_le.mpr h3)]
      rw [if_neg (by simp : ¬((r :: rest').isEmpty = true))]
      simp only [List.modifyHead]



/-- Witness for C2 at a concrete two-span input. -/
theorem C2_witness :
    chunksOrdered [mergeLeftInto sampleLong sampleShort] ∧
    (∀ c ∈ [mergeLeftInto sampleLong sampleShort],
      MAX_SENTENCE_LENGTH / 2 ≤ c.length ∨ [mergeLeftInto sampleLong sampleShort] = [c]) ∧
    ([mergeLeftInto sampleLong sampleShort]).Chain' (fun a b =>
      MAX_SENTENCE_LENGTH / 2 ≤ a.length ∨ MAX_SENTENCE_LENGTH / 2 ≤ b.length) :=
  C2_merger_order_and_threshold [sampleLong, sampleShort] [mergeLeftInto sampleLong sampleShort]
    (by simp [mergeChunks, mergeLoop, MAX_SENTENCE_LENGTH, mergeLeftAt, mergeLeftInto,
      sampleLong, sampleShort])
    (by unfold chunksOrdered; decide)

/-- Witness for C9: a sole short span is dropped without an error. -/
theorem C9_witness :
    mergeLoop (MAX_SENTENCE_LENGTH / 2) 10000000 [] [sampleShort] = .ok [] :=
  C9_no_neighbor_dropped_no_raise.2 sampleShort (by decide)

/-- Witness for C10 at a single short span. -/
theorem C10_witness :
    MAX_SENTENCE_LENGTH / 2 = 300 ∧
    (∀ c ∈ ([] : List Chunk), MAX_SENTENCE_LENGTH / 2 ≤ c.length) ∧
    ([sampleShort] ≠ [] → totalLen [sampleShort] < MAX_SENTENCE_LENGTH / 2 →
      ([] : List Chunk) = []) :=
  C10_output_min_length_and_discard [sampleShort] [] (by decide)
    (by simp [mergeChunks, mergeLoop, MAX_SENTENCE_LENGTH, sampleShort])

/-- Witness for C7: a short span with a long left neighbour and no right
neighbour is merged into the left neighbour. -/
theorem C7_witness :
    mergeLoop (MAX_SENTENCE_LENGTH / 2) 10000000 [sampleLong] [sampleShort] =
      mergeLoop (MAX_SENTENCE_LENGTH / 2) 10000000
        ([sampleLong].dropLast ++ [mergeLeftInto sampleLong sampleShort]) [] := by
  obtain ⟨l, hl, he⟩ :=
    (C7_short_span_merge_policy [sampleLong] sampleShort [] (by decide)
      (by
        intro l hl
        rw [List.getLast?_singleton] at hl
        obtain rfl := Option.some.inj hl
        decide)
      (by intro r hr; cases hr)
      (Or.inl (by simp))).1 (by decide)
  rw [List.getLast?_singleton] at hl
  obtain rfl := Option.some.inj hl
  exact he


end ESRag


namespace ESRag

variable {K : Type} [DecidableEq K] {V : Type}

theorem dictGet?_dictSet (d : List (K × V)) (key : K) (v : V) (key' : K) :
    dictGet? (dictSet d key v) key' = if key = key' then some v else dictGet? d key' := by
  induction d with
  | nil =>
    by_cases h : key = key' <;> simp [dictSet, dictGet?, h]
  | cons p rest ih =>
    by_cases hp : p.1 = key
    · simp only [dictSet, if_pos hp, dictGet?]
      by_cases h : key = key'
      · simp [h]
      · have hpk : ¬p.1 = key' := by rw [hp]; exact h
        simp [h, hpk]
    · simp only [dictSet, if_neg hp, dictGet?]
      by_cases hpk : p.1 = key'
      · have h : ¬key = key' := by rw [← hpk]; exact fun hh => hp hh.symm
        simp [h, hpk]
      · simp [hpk, ih]

theorem mem_dictKeys_iff_isSome (d : List (K × V)) (key : K) :
    key ∈ dictKeys d ↔ (dictGet? d key).isSome := by
  simp only [dictKeys]
  induction d with
  | nil => simp [dictGet?]
  | cons p rest ih =>
    by_cases hp : p.1 = key
    · simp [dictGet?, hp]
    · simp only [List.map_cons, List.mem_cons, dictGet?, if_neg hp]
      constructor
      · rintro (h | h)
        · exact absurd h.symm hp
        · exact ih.mp h
      · intro h
        exact Or.inr (ih.mpr h)

theorem dictKeys_dictSet (d : List (K × V)) (key : K) (v : V) :
    dictKeys (dictSet d key v) =
      if key ∈ dictKeys d then dictKeys d else dictKeys d ++ [key] := by
  simp only [dictKeys]
  induction d with
  | nil => simp [dictSet]
  | cons p rest ih =>
    by_cases hp : p.1 = key
    · simp [dictSet, hp]
    · have hkp : ¬key = p.1 := fun h => hp h.symm
      simp only [dictSet, if_neg hp, List.map_cons]
      rw [ih]
      by_cases hmem : key ∈ List.map Prod.fst rest
      · simp [hmem, hkp]
      · simp [hmem, hkp]

theorem nodup_dictKeys_dictSet (d : List (K × V)) (key : K) (v : V)
    (h : (dictKeys d).Nodup) : (dictKeys (dictSet d key v)).Nodup := by
  rw [dictKeys_dictSet]
  by_cases hmem : key ∈ dictKeys d
  · simp [hmem, h]
  · simp [hmem, h, List.nodup_append]

theorem mem_iff_dictGet?_of_nodup {d : List (K × V)} (h : (dictKeys d).Nodup)
    (key : K) (v : V) : (key, v) ∈ d ↔ dictGet? d key = some v := by
  induction d with
  | nil => simp [dictGet?]
  | cons p rest ih =>
    rw [dictKeys, List.map_cons, List.nodup_cons] at h
    by_cases hp : p.1 = key
    · subst hp
      simp only [dictGet?, if_pos rfl, List.mem_cons]
      constructor
      · rintro (h1 | h1)
        · rw [congrArg Prod.snd h1.symm]
          simp
        · exact absurd (List.mem_map_of_mem Prod.fst h1) h.1
      · intro h1
        left
        cases (Option.some.inj h1)
        exact Prod.mk.eta
    · simp only [dictGet?, if_neg hp, List.mem_cons]
      rw [← ih h.2]
      constructor
      · rintro (h1 | h1)
        · exact absurd (congrArg Prod.fst h1.symm) hp
        · exact h1
      · exact Or.inr

end ESRag

namespace ESRag

variable {K : Type} [DecidableEq K]

theorem rankDict_foldl_get (key : K) :
    ∀ (q : List (K × ℚ)) (n : Nat) (acc : List (K × Nat)),
      dictGet? ((List.enumFrom n q).foldl (fun acc p => dictSet acc p.2.1 (p.1 + 1)) acc) key =
        (lastRankFrom key (n + 1) q).elim (dictGet? acc key) some := by
  intro q
  induction q with
  | nil => intro n acc; simp [lastRankFrom]
  | cons p rest ih =>
    intro n acc
    rw [List.enumFrom_cons, List.foldl_cons]
    dsimp only
    rw [ih (n + 1) (dictSet acc p.1 (n + 1))]
    simp only [lastRankFrom]
    cases hlr : lastRankFrom key (n + 1 + 1) rest with
    | some r => simp
    | none =>
      simp only [Option.elim]
      rw [dictGet?_dictSet]
      by_cases hp : p.1 = key
      · simp [hp]
      · have : ¬key = p.1 := fun h => hp h.symm
        simp [hp, this]

theorem rankDict_get (q : List (K × ℚ)) (key : K) :
    dictGet? (rankDict q) key = lastRank q key := by
  rw [rankDict, lastRank, List.enum_eq_enumFrom]
  rw [rankDict_foldl_get key q 0 []]
  cases lastRankFrom key 1 q <;> simp [dictGet?]

theorem lastRankFrom_isSome_iff (key : K) :
    ∀ (q : List (K × ℚ)) (n : Nat),
      (lastRankFrom key n q).isSome ↔ key ∈ q.map Prod.fst := by
  intro q
  induction q with
  | nil => intro n; simp [lastRankFrom]
  | cons p rest ih =>
    intro n
    simp only [lastRankFrom, List.map_cons, List.mem_cons]
    cases hlr : lastRankFrom key (n + 1) rest with
    | some r =>
      simp only [Option.isSome_some, true_iff]
      refine Or.inr ((ih (n + 1)).mp ?_)
      rw [hlr]
      rfl
    | none =>
      by_cases hp : p.1 = key
      · simp [hp]
      · have hkp : ¬key = p.1 := fun h => hp h.symm
        simp only [hp, if_false, hkp, false_or]
        rw [← ih (n + 1), hlr]

theorem lastRankFrom_ge (key : K) :
    ∀ (q : List (K × ℚ)) (n r : Nat), lastRankFrom key n q = some r → n ≤ r := by
  intro q
  induction q with
  | nil => intro n r h; simp [lastRankFrom] at h
  | cons p rest ih =>
    intro n r h
    simp only [lastRankFrom] at h
    cases hlr : lastRankFrom key (n + 1) rest with
    | some r2 =>
      rw [hlr] at h
      have h2 := Option.some.inj h
      subst h2
      exact Nat.le_of_succ_le (ih (n + 1) r2 hlr)
    | none =>
      rw [hlr] at h
      by_cases hp : p.1 = key
      · rw [if_pos hp] at h
        have h2 := Option.some.inj h
        subst h2
        exact Nat.le_refl n
      · rw [if_neg hp] at h
        cases h

theorem mem_dictKeys_rankDict (q : List (K × ℚ)) (key : K) :
    key ∈ dictKeys (rankDict q) ↔ key ∈ q.map Prod.fst := by
  rw [mem_dictKeys_iff_isSome, rankDict_get, lastRank, lastRankFrom_isSome_iff]

theorem rankDict_values_pos (q : List (K × ℚ)) (key : K) (r : Nat)
    (h : dictGet? (rankDict q) key = some r) : 1 ≤ r := by
  rw [rankDict_get, lastRank] at h
  exact lastRankFrom_ge key q 1 r h

end ESRag

namespace ESRag

variable {K : Type} [DecidableEq K]

theorem lastRankFrom_eq_none (key : K) (q : List (K × ℚ)) (n : Nat)
    (h : key ∉ q.map Prod.fst) : lastRankFrom key n q = none := by
  have := (lastRankFrom_isSome_iff key q n).not.mpr h
  cases hlr : lastRankFrom key n q with
  | none => rfl
  | some r => rw [hlr] at this; simp at this

theorem lastRankFrom_eq_findIdx? (key : K) :
    ∀ (q : List (K × ℚ)) (i : Nat), (q.map Prod.fst).Nodup →
      lastRankFrom key (i + 1) q =
        (List.findIdx? (fun p => p.1 = key) q i).map (· + 1) := by
  intro q
  induction q with
  | nil => intro i _; simp [lastRankFrom]
  | cons p rest ih =>
    intro i hnd
    rw [List.map_cons, List.nodup_cons] at hnd
    simp only [lastRankFrom, List.findIdx?_cons]
    by_cases hp : p.1 = key
    · have hkey : key ∉ rest.map Prod.fst := hp ▸ hnd.1
      rw [lastRankFrom_eq_none key rest (i + 1 + 1) hkey]
      simp [hp]
    · rw [ih (i + 1) hnd.2]
      cases List.findIdx? (fun p => p.1 = key) rest (i + 1) with
      | none => simp [hp]
      | some j => simp [hp]

theorem lastRank_eq_rankIn (q : List (K × ℚ)) (key : K)
    (hnd : (q.map Prod.fst).Nodup) : lastRank q key = rankIn q key := by
  rw [lastRank, rankIn]
  exact lastRankFrom_eq_findIdx? key q 0 hnd

end ESRag

namespace ESRag

variable {K : Type} [DecidableEq K]

theorem accumStep_get (k : ℤ) (rank : List (K × Nat)) (hnd : (dictKeys rank).Nodup) :
    ∀ (result : List (K × ℚ)) (key : K),
      dictGet? (accumStep k result rank) key =
        match dictGet? rank key with
        | some r => some (((dictGet? result key).getD 0) + 1 / ((k : ℚ) + (r : ℚ)))
        | none => dictGet? result key := by
  induction rank with
  | nil => intro result key; simp [accumStep, dictGet?]
  | cons p rest ih =>
    intro result key
    rw [dictKeys, List.map_cons, List.nodup_cons] at hnd
    rw [accumStep, List.foldl_cons]
    rw [show (List.foldl
        (fun result p => dictSet result p.1 (((dictGet? result p.1).getD 0) + 1 / ((k : ℚ) + (p.2 : ℚ))))
        (dictSet result p.1 (((dictGet? result p.1).getD 0) + 1 / ((k : ℚ) + (p.2 : ℚ)))) rest)
      = accumStep k (dictSet result p.1 (((dictGet? result p.1).getD 0) + 1 / ((k : ℚ) + (p.2 : ℚ)))) rest
      from rfl]
    rw [ih hnd.2]
    by_cases hp : p.1 = key
    · have hkey : key ∉ rest.map Prod.fst := hp ▸ hnd.1
      have hnone : dictGet? rest key = none := by
        cases hg : dictGet? rest key with
        | none => rfl
        | some r =>
          exfalso
          have hs : (dictGet? rest key).isSome := by rw [hg]; rfl
          exact hkey (by simpa [dictKeys] using (mem_dictKeys_iff_isSome rest key).mpr hs)
      rw [hnone]
      simp only [dictGet?, if_pos hp]
      rw [dictGet?_dictSet]
      simp [hp]
    · simp only [dictGet?, if_neg hp]
      rw [dictGet?_dictSet]
      have hkp : ¬p.1 = key := hp
      cases dictGet? rest key with
      | none => simp [hkp]
      | some r => simp [hkp]

end ESRag

namespace ESRag

variable {K : Type} [DecidableEq K] {V : Type}

theorem dictGet?_eq_none_iff (d : List (K × V)) (key : K) :
    dictGet? d key = none ↔ key ∉ dictKeys d := by
  rw [mem_dictKeys_iff_isSome]
  cases h : dictGet? d key <;> simp

theorem accumFold_get_not_mem (k : ℤ) :
    ∀ (ranks : List (List (K × Nat))) (result : List (K × ℚ)) (key : K),
      (∀ rank ∈ ranks, (dictKeys rank).Nodup) →
      (∀ rank ∈ ranks, key ∉ dictKeys rank) →
      dictGet? (ranks.foldl (accumStep k) result) key = dictGet? result key := by
  intro ranks
  induction ranks with
  | nil => intro result key _ _; simp
  | cons rank ranks' ih =>
    intro result key hnd hmem
    rw [List.foldl_cons]
    rw [ih _ key (fun r hr => hnd r (by simp [hr])) (fun r hr => hmem r (by simp [hr]))]
    rw [accumStep_get k rank (hnd rank (by simp)) result key]
    rw [(dictGet?_eq_none_iff rank key).mpr (hmem rank (by simp))]

theorem accumFold_get_mem (k : ℤ) :
    ∀ (ranks : List (List (K × Nat))) (result : List (K × ℚ)) (key : K),
      (∀ rank ∈ ranks, (dictKeys rank).Nodup) →
      (∃ rank ∈ ranks, key ∈ dictKeys rank) →
      dictGet? (ranks.foldl (accumStep k) result) key =
        some (((dictGet? result key).getD 0) +
          (ranks.map (fun rank => contribAt k (dictGet? rank key))).sum) := by
  intro ranks
  induction ranks with
  | nil => intro result key _ hex; simp at hex
  | cons rank ranks' ih =>
    intro result key hnd hex
    rw [List.foldl_cons]
    have hstep := accumStep_get k rank (hnd rank (by simp)) result key
    by_cases hex' : ∃ r ∈ ranks', key ∈ dictKeys r
    · rw [ih _ key (fun r hr => hnd r (by simp [hr])) hex']
      rw [List.map_cons, List.sum_cons]
      cases hg : dictGet? rank key with
      | some r =>
        rw [hg] at hstep
        rw [hstep]
        simp only [Option.getD_some, contribAt]
        congr 1
        ring
      | none =>
        rw [hg] at hstep
        rw [hstep]
        simp only [contribAt]
        congr 1
        ring
    · -- key only in the head rank
      have hkr : key ∈ dictKeys rank := by
        rcases hex with ⟨r, hr, hkey⟩
        rcases List.mem_cons.mp hr with rfl | hr
        · exact hkey
        · exact absurd ⟨r, hr, hkey⟩ hex'
      have hg : ∃ r, dictGet? rank key = some r := by
        have := (mem_dictKeys_iff_isSome rank key).mp hkr
        cases hgg : dictGet? rank key with
        | none => rw [hgg] at this; simp at this
        | some r => exact ⟨r, rfl⟩
      rcases hg with ⟨r, hg⟩
      rw [accumFold_get_not_mem k ranks' _ key (fun rr hrr => hnd rr (by simp [hrr]))
        (fun rr hrr => fun hkk => hex' ⟨rr, hrr, hkk⟩)]
      rw [hstep, hg]
      rw [List.map_cons, List.sum_cons]
      have hzero : (ranks'.map (fun rank => contribAt k (dictGet? rank key))).sum = 0 := by
        apply List.sum_eq_zero
        intro x hx
        rcases List.mem_map.mp hx with ⟨rr, hrr, rfl⟩
        rw [(dictGet?_eq_none_iff rr key).mpr (fun hkk => hex' ⟨rr, hrr, hkk⟩)]
        simp [contribAt]
      rw [hzero, hg]
      simp [contribAt]

end ESRag

namespace ESRag

variable {K : Type} [DecidableEq K] {V : Type}

theorem mem_dictSet (d : List (K × V)) (key : K) (v : V) :
    ∀ pr ∈ dictSet d key v, pr ∈ d ∨ pr = (key, v) := by
  induction d with
  | nil => intro pr hpr; simp [dictSet] at hpr; simp [hpr]
  | cons p rest ih =>
    intro pr hpr
    by_cases hp : p.1 = key
    · rw [dictSet, if_pos hp] at hpr
      rcases List.mem_cons.mp hpr with rfl | hpr
      · exact Or.inr rfl
      · exact Or.inl (by simp [hpr])
    · rw [dictSet, if_neg hp] at hpr
      rcases List.mem_cons.mp hpr with rfl | hpr
      · exact Or.inl (by simp)
      · rcases ih pr hpr with h | h
        · exact Or.inl (by simp [h])
        · exact Or.inr h

theorem rankDict_foldl_values :
    ∀ (q : List (K × ℚ)) (n : Nat) (acc : List (K × Nat)),
      (∀ pr ∈ acc, 1 ≤ pr.2) →
      ∀ pr ∈ (List.enumFrom n q).foldl (fun acc p => dictSet acc p.2.1 (p.1 + 1)) acc,
        1 ≤ pr.2 := by
  intro q
  induction q with
  | nil => intro n acc hacc pr hpr; simpa using hacc pr (by simpa using hpr)
  | cons p rest ih =>
    intro n acc hacc pr hpr
    rw [List.enumFrom_cons, List.foldl_cons] at hpr
    dsimp only at hpr
    refine ih (n + 1) _ ?_ pr hpr
    intro pr' hpr'
    rcases mem_dictSet acc p.1 (n + 1) pr' hpr' with h | h
    · exact hacc pr' h
    · rw [h]
      exact Nat.le_add_left 1 n

theorem rankDict_values (q : List (K × ℚ)) :
    ∀ pr ∈ rankDict q, 1 ≤ pr.2 := by
  intro pr hpr
  rw [rankDict, List.enum_eq_enumFrom] at hpr
  exact rankDict_foldl_values q 0 [] (by simp) pr hpr

theorem nodup_dictKeys_accumStep (k : ℤ) (rank : List (K × Nat)) :
    ∀ (result : List (K × ℚ)), (dictKeys result).Nodup →
      (dictKeys (accumStep k result rank)).Nodup := by
  induction rank with
  | nil => intro result h; simpa [accumStep] using h
  | cons p rest ih =>
    intro result h
    rw [accumStep, List.foldl_cons]
    exact ih _ (nodup_dictKeys_dictSet _ _ _ h)

theorem nodup_dictKeys_rrfAccum (k : ℤ) (ranks : List (List (K × Nat))) :
    (dictKeys (rrfAccum k ranks)).Nodup := by
  rw [rrfAccum]
  have : ∀ (result : List (K × ℚ)), (dictKeys result).Nodup →
      (dictKeys (ranks.foldl (accumStep k) result)).Nodup := by
    induction ranks with
    | nil => intro result h; simpa using h
    | cons rank ranks' ih =>
      intro result h
      rw [List.foldl_cons]
      exact ih _ (nodup_dictKeys_accumStep k rank result h)
  exact this [] (by simp [dictKeys])

theorem accumStepE_ok (k : ℤ) :
    ∀ (rank : List (K × Nat)), (∀ p ∈ rank, (k : ℚ) + (p.2 : ℚ) ≠ 0) →
      ∀ (result : List (K × ℚ)), accumStepE k result rank = .ok (accumStep k result rank) := by
  intro rank
  induction rank with
  | nil => intro _ result; rfl
  | cons p rest ih =>
    intro hdiv result
    have hp : pyDiv 1 ((k : ℚ) + (p.2 : ℚ)) = .ok (1 / ((k : ℚ) + (p.2 : ℚ))) := by
      rw [pyDiv, if_neg (hdiv p (by simp))]
    rw [accumStepE, List.foldlM_cons]
    rw [hp]
    show accumStepE k (dictSet result p.1 (((dictGet? result p.1).getD 0) + 1 / ((k : ℚ) + (p.2 : ℚ)))) rest = _
    rw [ih (fun p hp => hdiv p (by simp [hp])) _]
    rfl

end ESRag

namespace ESRag

variable {K : Type} [DecidableEq K]

theorem rrfAccumE_ok (k : ℤ) :
    ∀ (ranks : List (List (K × Nat))),
      (∀ rank ∈ ranks, ∀ p ∈ rank, (k : ℚ) + (p.2 : ℚ) ≠ 0) →
      rrfAccumE k ranks = .ok (rrfAccum k ranks) := by
  have main : ∀ (ranks : List (List (K × Nat))),
      (∀ rank ∈ ranks, ∀ p ∈ rank, (k : ℚ) + (p.2 : ℚ) ≠ 0) →
      ∀ (result : List (K × ℚ)),
        ranks.foldlM (accumStepE k) result = .ok (ranks.foldl (accumStep k) result) := by
    intro ranks
    induction ranks with
    | nil => intro _ result; rfl
    | cons rank ranks' ih =>
      intro hdiv result
      rw [List.foldlM_cons, List.foldl_cons]
      rw [accumStepE_ok k rank (hdiv rank (by simp)) result]
      show ranks'.foldlM (accumStepE k) (accumStep k result rank) = _
      exact ih (fun r hr => hdiv r (by simp [hr])) _
  intro ranks h
  rw [rrfAccumE, rrfAccum]
  exact main ranks h []

theorem rankDict_divisors (k : ℤ) (hk : 0 ≤ k) (queries : List (List (K × ℚ))) :
    ∀ rank ∈ queries.map rankDict, ∀ p ∈ rank, (k : ℚ) + (p.2 : ℚ) ≠ 0 := by
  intro rank hrank p hp
  rcases List.mem_map.mp hrank with ⟨q, _, rfl⟩
  have h1 : 1 ≤ p.2 := rankDict_values q p hp
  have hpos : (0 : ℚ) < (k : ℚ) + (p.2 : ℚ) := by
    have hk' : (0 : ℚ) ≤ (k : ℚ) := by exact_mod_cast hk
    have hp' : (1 : ℚ) ≤ (p.2 : ℚ) := by exact_mod_cast h1
    linarith
  exact ne_of_gt hpos

theorem rrf_ok (queries : List (List (K × ℚ))) (k : ℤ) (hk : 0 ≤ k) :
    rrf queries k = .ok (rrfTotal queries k) := by
  rw [rrf, rrfTotal]
  rw [rrfAccumE_ok k (queries.map rankDict) (rankDict_divisors k hk queries)]
  rfl

end ESRag

namespace ESRag

variable {K : Type} [DecidableEq K]

theorem nodup_dictKeys_rankDict (q : List (K × ℚ)) : (dictKeys (rankDict q)).Nodup := by
  rw [rankDict]
  have main : ∀ (l : List (Nat × (K × ℚ))) (acc : List (K × Nat)), (dictKeys acc).Nodup →
      (dictKeys (l.foldl (fun acc p => dictSet acc p.2.1 (p.1 + 1)) acc)).Nodup := by
    intro l
    induction l with
    | nil => intro acc h; simpa using h
    | cons p rest ih =>
      intro acc h
      rw [List.foldl_cons]
      exact ih _ (nodup_dictKeys_dictSet _ _ _ h)
  exact main q.enum [] (by simp [dictKeys])

theorem mem_dictKeys_rrfAccum (k : ℤ) (ranks : List (List (K × Nat)))
    (hnd : ∀ rank ∈ ranks, (dictKeys rank).Nodup) (key : K) :
    key ∈ dictKeys (rrfAccum k ranks) ↔ ∃ rank ∈ ranks, key ∈ dictKeys rank := by
  rw [mem_dictKeys_iff_isSome]
  constructor
  · intro h
    by_cases hex : ∃ rank ∈ ranks, key ∈ dictKeys rank
    · exact hex
    · exfalso
      rw [rrfAccum, accumFold_get_not_mem k ranks [] key hnd
        (fun r hr hk => hex ⟨r, hr, hk⟩)] at h
      simp [dictGet?] at h
  · intro hex
    rw [rrfAccum, accumFold_get_mem k ranks [] key hnd hex]
    rfl

theorem rrfAccum_get_of_mem (k : ℤ) (ranks : List (List (K × Nat)))
    (hnd : ∀ rank ∈ ranks, (dictKeys rank).Nodup) (key : K)
    (hex : ∃ rank ∈ ranks, key ∈ dictKeys rank) :
    dictGet? (rrfAccum k ranks) key =
      some ((ranks.map (fun rank => contribAt k (dictGet? rank key))).sum) := by
  rw [rrfAccum, accumFold_get_mem k ranks [] key hnd hex]
  simp [dictGet?]

theorem scoreDesc_trans : ∀ a b c : K × ℚ,
    scoreDesc a b = true → scoreDesc b c = true → scoreDesc a c = true := by
  intro a b c hab hbc
  simp only [scoreDesc, decide_eq_true_eq] at hab hbc ⊢
  exact le_trans hbc hab

theorem scoreDesc_total : ∀ a b : K × ℚ, (scoreDesc a b || scoreDesc b a) = true := by
  intro a b
  simp only [scoreDesc, Bool.or_eq_true, decide_eq_true_eq]
  exact (le_total b.2 a.2)

theorem rrfTotal_sorted (queries : List (List (K × ℚ))) (k : ℤ) :
    (rrfTotal queries k).Pairwise (fun a b => b.2 ≤ a.2) := by
  rw [rrfTotal]
  have h := List.sorted_mergeSort scoreDesc_trans scoreDesc_total
    (rrfAccum k (queries.map rankDict))
  exact h.imp (fun hab => by simpa [scoreDesc] using hab)

theorem rrfTotal_mem_keys (queries : List (List (K × ℚ))) (k : ℤ) (key : K) :
    key ∈ (rrfTotal queries k).map Prod.fst ↔ ∃ q ∈ queries, key ∈ q.map Prod.fst := by
  rw [rrfTotal]
  have hperm : ((rrfAccum k (queries.map rankDict)).mergeSort scoreDesc).Perm
      (rrfAccum k (queries.map rankDict)) := List.mergeSort_perm _ _
  rw [List.mem_map]
  constructor
  · rintro ⟨pr, hpr, rfl⟩
    have hpr' : pr ∈ rrfAccum k (queries.map rankDict) := hperm.mem_iff.mp hpr
    have : pr.1 ∈ dictKeys (rrfAccum k (queries.map rankDict)) :=
      List.mem_map_of_mem Prod.fst hpr'
    rw [mem_dictKeys_rrfAccum k _ (fun rank hrank => by
      rcases List.mem_map.mp hrank with ⟨q, _, rfl⟩
      exact nodup_dictKeys_rankDict q)] at this
    rcases this with ⟨rank, hrank, hkey⟩
    rcases List.mem_map.mp hrank with ⟨q, hq, rfl⟩
    exact ⟨q, hq, (mem_dictKeys_rankDict q pr.1).mp hkey⟩
  · rintro ⟨q, hq, hkey⟩
    have hex : ∃ rank ∈ queries.map rankDict, key ∈ dictKeys rank :=
      ⟨rankDict q, List.mem_map_of_mem rankDict hq, (mem_dictKeys_rankDict q key).mpr hkey⟩
    have : key ∈ dictKeys (rrfAccum k (queries.map rankDict)) :=
      (mem_dictKeys_rrfAccum k _ (fun rank hrank => by
        rcases List.mem_map.mp hrank with ⟨q', _, rfl⟩
        exact nodup_dictKeys_rankDict q') key).mpr hex
    rcases List.mem_map.mp this with ⟨pr, hpr, rfl⟩
    exact ⟨pr, hperm.mem_iff.mpr hpr, rfl⟩

theorem rrfTotal_score_code (queries : List (List (K × ℚ))) (k : ℤ) (key : K) (s : ℚ)
    (hmem : (key, s) ∈ rrfTotal queries k) : s = codeScore queries k key := by
  have hndranks : ∀ rank ∈ queries.map rankDict, (dictKeys rank).Nodup := by
    intro rank hrank
    rcases List.mem_map.mp hrank with ⟨q, _, rfl⟩
    exact nodup_dictKeys_rankDict q
  have hacc : (key, s) ∈ rrfAccum k (queries.map rankDict) :=
    (List.mergeSort_perm _ scoreDesc).mem_iff.mp hmem
  have hkey : key ∈ dictKeys (rrfAccum k (queries.map rankDict)) :=
    List.mem_map_of_mem Prod.fst hacc
  have hex := (mem_dictKeys_rrfAccum k _ hndranks key).mp hkey
  have hget := (mem_iff_dictGet?_of_nodup (nodup_dictKeys_rrfAccum k _) key s).mp hacc
  rw [rrfAccum_get_of_mem k _ hndranks key hex] at hget
  have hs := Option.some.inj hget.symm
  rw [hs, codeScore, List.map_map]
  refine congrArg List.sum (List.map_congr_left (fun q _ => ?_))
  simp only [Function.comp]
  rw [rankDict_get]

end ESRag

namespace ESRag

variable {K : Type} [DecidableEq K]

theorem mem_foldl_insertNew (y : K) :
    ∀ (L A : List K), y ∈ L.foldl insertNew A ↔ y ∈ A ∨ y ∈ L := by
  intro L
  induction L with
  | nil => intro A; simp
  | cons x L' ih =>
    intro A
    rw [List.foldl_cons, ih]
    by_cases hx : x ∈ A
    · simp only [insertNew, if_pos hx, List.mem_cons]
      constructor
      · rintro (h | h)
        · exact Or.inl h
        · exact Or.inr (Or.inr h)
      · rintro (h | rfl | h)
        · exact Or.inl h
        · exact Or.inl hx
        · exact Or.inr h
    · simp only [insertNew, if_neg hx, List.mem_append, List.mem_singleton, List.mem_cons]
      tauto

theorem foldl_insertNew_insertNew (x : K) (A B : List K) :
    (insertNew B x).foldl insertNew A = insertNew (B.foldl insertNew A) x := by
  by_cases hx : x ∈ B
  · rw [insertNew, if_pos hx, insertNew,
      if_pos ((mem_foldl_insertNew x B A).mpr (Or.inr hx))]
  · rw [insertNew, if_neg hx, List.foldl_append]
    rfl

theorem foldl_insertNew_absorb :
    ∀ (L B A : List K), (L.foldl insertNew B).foldl insertNew A =
      L.foldl insertNew (B.foldl insertNew A) := by
  intro L
  induction L with
  | nil => intro B A; rfl
  | cons x L' ih =>
    intro B A
    rw [List.foldl_cons, List.foldl_cons, ih, foldl_insertNew_insertNew]

theorem dictKeys_dictSet_insertNew (d : List (K × V)) (key : K) (v : V) :
    dictKeys (dictSet d key v) = insertNew (dictKeys d) key := by
  rw [dictKeys_dictSet, insertNew]

theorem dictKeys_cons (p : K × V) (rest : List (K × V)) :
    dictKeys (p :: rest) = p.1 :: dictKeys rest := rfl

theorem dictKeys_rankDict_eq (q : List (K × ℚ)) :
    dictKeys (rankDict q) = (q.map Prod.fst).foldl insertNew [] := by
  rw [rankDict, List.enum_eq_enumFrom]
  have main : ∀ (l : List (K × ℚ)) (n : Nat) (acc : List (K × Nat)),
      dictKeys ((List.enumFrom n l).foldl (fun acc p => dictSet acc p.2.1 (p.1 + 1)) acc) =
        (l.map Prod.fst).foldl insertNew (dictKeys acc) := by
    intro l
    induction l with
    | nil => intro n acc; simp
    | cons p rest ih =>
      intro n acc
      rw [List.enumFrom_cons, List.foldl_cons, List.map_cons, List.foldl_cons]
      dsimp only
      rw [ih (n + 1) (dictSet acc p.1 (n + 1))]
      rw [dictKeys_dictSet_insertNew]
  rw [main q 0 []]
  rfl

theorem dictKeys_accumStep (k : ℤ) (rank : List (K × Nat)) :
    ∀ (result : List (K × ℚ)),
      dictKeys (accumStep k result rank) = (dictKeys rank).foldl insertNew (dictKeys result) := by
  induction rank with
  | nil => intro result; rfl
  | cons p rest ih =>
    intro result
    rw [accumStep, List.foldl_cons]
    rw [show List.foldl
        (fun result p => dictSet result p.1 (((dictGet? result p.1).getD 0) + 1 / ((k : ℚ) + (p.2 : ℚ))))
        (dictSet result p.1 (((dictGet? result p.1).getD 0) + 1 / ((k : ℚ) + (p.2 : ℚ)))) rest
      = accumStep k (dictSet result p.1 (((dictGet? result p.1).getD 0) + 1 / ((k : ℚ) + (p.2 : ℚ)))) rest
      from rfl]
    rw [ih, dictKeys_cons, List.foldl_cons, dictKeys_dictSet_insertNew]

theorem dictKeys_rrfAccum_firstSeen (k : ℤ) (queries : List (List (K × ℚ))) :
    dictKeys (rrfAccum k (queries.map rankDict)) = firstSeenOrder queries := by
  rw [rrfAccum, firstSeenOrder]
  have main : ∀ (qs : List (List (K × ℚ))) (A : List (K × ℚ)),
      dictKeys ((qs.map rankDict).foldl (accumStep k) A) =
        ((qs.map (fun q => q.map Prod.fst)).flatten).foldl insertNew (dictKeys A) := by
    intro qs
    induction qs with
    | nil => intro A; simp
    | cons q rest ih =>
      intro A
      rw [List.map_cons, List.foldl_cons, List.map_cons, List.flatten_cons, List.foldl_append]
      rw [ih (accumStep k A (rankDict q))]
      rw [dictKeys_accumStep, dictKeys_rankDict_eq, foldl_insertNew_absorb]
      rfl
  rw [main queries []]
  rfl

theorem pair_sublist_of_keys {l : List (K × ℚ)} {a b : K} {s t : ℚ}
    (hnd : (l.map Prod.fst).Nodup) (hab : [a, b].Sublist (l.map Prod.fst))
    (ha : (a, s) ∈ l) (hb : (b, t) ∈ l) : [(a, s), (b, t)].Sublist l := by
  induction l with
  | nil => simp at ha
  | cons p l' ih =>
    rw [List.map_cons, List.nodup_cons] at hnd
    rw [List.map_cons] at hab
    cases hab with
    | cons _ hab2 =>
      have hamem : a ∈ l'.map Prod.fst := hab2.subset (by simp)
      have hbmem : b ∈ l'.map Prod.fst := hab2.subset (by simp)
      have ha' : (a, s) ∈ l' := by
        rcases List.mem_cons.mp ha with heq | h
        · exfalso
          apply hnd.1
          rw [show p.1 = a from by rw [← heq]]
          exact hamem
        · exact h
      have hb' : (b, t) ∈ l' := by
        rcases List.mem_cons.mp hb with heq | h
        · exfalso
          apply hnd.1
          rw [show p.1 = b from by rw [← heq]]
          exact hbmem
        · exact h
      exact (ih hnd.2 hab2 ha' hb').cons p
    | cons₂ _ hab2 =>
      have hbmem : b ∈ l'.map Prod.fst := by
        simpa using hab2.subset (by simp)
      have hb' : (b, t) ∈ l' := by
        rcases List.mem_cons.mp hb with heq | h
        · exfalso
          apply hnd.1
          rw [show p.1 = b from by rw [← heq]]
          exact hbmem
        · exact h
      have hpa : p = (p.1, s) := by
        rcases List.mem_cons.mp ha with h | h
        · exact h.symm
        · exact absurd (List.mem_map_of_mem Prod.fst h) (by simpa using hnd.1)
      have hps : p.2 = s := congrArg Prod.snd hpa
      rw [← hps, Prod.mk.eta]
      exact List.Sublist.cons₂ p (List.singleton_sublist.mpr hb')

end ESRag

namespace ESRag

variable {K : Type} [DecidableEq K]

theorem codeScore_eq_specScore (queries : List (List (K × ℚ))) (k : ℤ) (key : K)
    (hnodup : ∀ q ∈ queries, (q.map Prod.fst).Nodup) :
    codeScore queries k key = specScore queries k key := by
  rw [codeScore, specScore]
  refine congrArg List.sum (List.map_congr_left (fun q hq => ?_))
  rw [lastRank_eq_rankIn q key (hnodup q hq)]

/-- C1 (amended): for every sequence of ranked lists with distinct keys
within each list and every integer `k ≥ 0` (the default is 60; negative `k`
can raise, see the counterexample), `rrf` returns exactly the items
appearing in at least one list, each scored with the sum over the lists
containing it of `1/(k + r)` for its 1-based position `r` (`specScore`),
sorted by score descending. -/
theorem C1_rrf_fusion_spec (queries : List (List (K × ℚ))) (k : ℤ) (hk : 0 ≤ k)
    (hnodup : ∀ q ∈ queries, (q.map Prod.fst).Nodup) :
    ∃ out, rrf queries k = .ok out ∧
      (∀ key, key ∈ out.map Prod.fst ↔ ∃ q ∈ queries, key ∈ q.map Prod.fst) ∧
      (∀ key s, (key, s) ∈ out → s = specScore queries k key) ∧
      out.Pairwise (fun a b => b.2 ≤ a.2) := by
  refine ⟨rrfTotal queries k, rrf_ok queries k hk, ?_, ?_, rrfTotal_sorted queries k⟩
  · intro key
    exact rrfTotal_mem_keys queries k key
  · intro key s hm
    rw [rrfTotal_score_code queries k key s hm]
    exact codeScore_eq_specScore queries k key hnodup

end ESRag

namespace ESRag

end ESRag

namespace ESRag

theorem rankDict_c4 : rankDict [((0 : Nat), (0 : ℚ)), (0, 0), (1, 0)] = [(0, 2), (1, 3)] := rfl

theorem accum_c4 : rrfAccum 60 ([[((0 : Nat), (0 : ℚ)), (0, 0), (1, 0)]].map rankDict) =
    [(0, (0 : ℚ) + 1 / (((60 : ℤ) : ℚ) + ((2 : Nat) : ℚ))),
     (1, (0 : ℚ) + 1 / (((60 : ℤ) : ℚ) + ((3 : Nat) : ℚ)))] := rfl

theorem rrf_c4_eval : rrf [[((0 : Nat), (0 : ℚ)), (0, 0), (1, 0)]] 60 =
    .ok [(0, 1/62), (1, 1/63)] := by
  rw [rrf_ok _ _ (by norm_num), rrfTotal, accum_c4]
  rw [List.mergeSort_of_sorted (by
    refine List.pairwise_cons.mpr ⟨?_, List.pairwise_singleton _ _⟩
    intro b hb
    rw [List.mem_singleton.mp hb, scoreDesc]
    rw [decide_eq_true_eq]
    push_cast
    norm_num)]
  simp only [Except.ok.injEq, List.cons.injEq, Prod.mk.injEq, true_and, and_true]
  push_cast
  norm_num

end ESRag

namespace ESRag

theorem accum_c8 : rrfAccum 60
    ([[((0 : Nat), (0 : ℚ)), (1, 0), (2, 0)], [(1, 0), (0, 0), (2, 0)]].map rankDict) =
    [(0, (0 : ℚ) + 1 / (((60 : ℤ) : ℚ) + ((1 : Nat) : ℚ)) + 1 / (((60 : ℤ) : ℚ) + ((2 : Nat) : ℚ))),
     (1, (0 : ℚ) + 1 / (((60 : ℤ) : ℚ) + ((2 : Nat) : ℚ)) + 1 / (((60 : ℤ) : ℚ) + ((1 : Nat) : ℚ))),
     (2, (0 : ℚ) + 1 / (((60 : ℤ) : ℚ) + ((3 : Nat) : ℚ)) + 1 / (((60 : ℤ) : ℚ) + ((3 : Nat) : ℚ)))] := rfl

theorem rrf_c8_eval :
    rrf [[((0 : Nat), (0 : ℚ)), (1, 0), (2, 0)], [(1, 0), (0, 0), (2, 0)]] 60 =
    .ok [(0, 1/61 + 1/62), (1, 1/62 + 1/61), (2, 1/63 + 1/63)] := by
  rw [rrf_ok _ _ (by norm_num), rrfTotal, accum_c8]
  rw [List.mergeSort_of_sorted (by
    refine List.pairwise_cons.mpr ⟨?_, List.pairwise_cons.mpr ⟨?_, List.pairwise_singleton _ _⟩⟩
    · intro b hb
      rcases List.mem_cons.mp hb with rfl | hb
      · rw [scoreDesc, decide_eq_true_eq]
        push_cast
        norm_num
      · rw [List.mem_singleton.mp hb, scoreDesc, decide_eq_true_eq]
        push_cast
        norm_num
    · intro b hb
      rw [List.mem_singleton.mp hb, scoreDesc, decide_eq_true_eq]
      push_cast
      norm_num)]
  simp only [Except.ok.injEq, List.cons.injEq, Prod.mk.injEq, true_and, and_true]
  push_cast
  norm_num

theorem rrf_c1_error : rrf [[((0 : Nat), (0 : ℚ))]] (-1) =
    .error "ZeroDivisionError: float division by zero" := by
  have hdiv : pyDiv 1 (((-1 : ℤ) : ℚ) + ((1 : Nat) : ℚ)) =
      .error "ZeroDivisionError: float division by zero" := by
    rw [pyDiv, if_pos]
    push_cast
    norm_num
  have hstep : accumStepE (-1) [] (rankDict [((0 : Nat), (0 : ℚ))]) =
      .error "ZeroDivisionError: float division by zero" := by
    rw [show rankDict [((0 : Nat), (0 : ℚ))] = [(0, 1)] from rfl]
    rw [accumStepE, List.foldlM_cons]
    rw [show ((do
        let c ← pyDiv 1 (((-1 : ℤ) : ℚ) + (((1 : Nat) : Nat) : ℚ))
        pure (dictSet ([] : List (Nat × ℚ)) 0 (((dictGet? ([] : List (Nat × ℚ)) 0).getD 0) + c))) :
          Except String (List (Nat × ℚ)))
      = .error "ZeroDivisionError: float division by zero" from by rw [hdiv]; rfl]
    rfl
  have haccE : rrfAccumE (-1) ([[((0 : Nat), (0 : ℚ))]].map rankDict) =
      .error "ZeroDivisionError: float division by zero" := by
    rw [rrfAccumE, List.map_cons, List.map_nil, List.foldlM_cons]
    rw [hstep]
    rfl
  rw [rrf, haccE]
  rfl

end ESRag

namespace ESRag

/-- C4 counterexample: on the list `[(0,_), (0,_), (1,_)]` with a duplicated
key `0`, `rrf` scores key `0` as `1/(60+2)` — the rank of the *last*
occurrence — not `1/(60+1)` as the first-occurrence reading of the claim
predicts. -/
theorem C4_counterexample :
    rrf [[((0 : Nat), (0 : ℚ)), (0, 0), (1, 0)]] 60 = .ok [(0, 1/62), (1, 1/63)] ∧
    ((1 : ℚ)/62 ≠ 1/61) :=
  ⟨rrf_c4_eval, by norm_num⟩

/-- C4 (amended), on every input (duplicated keys included) with `k ≥ 0`:
`rrf` surfaces no error; every output score is `codeScore`, the sum over
the lists of `1/(k + r)` with `r` the 1-based position of the *last*
occurrence of the key in the list (`lastRank`) — the rank the dict
comprehension retains when a key repeats, the earlier occurrences' ranks
being overwritten; the output carries exactly the keys occurring in some
list; and before sorting, the accumulated dict lists the keys in
first-seen order, so an earlier duplicate fixes only the key's insertion
position, never its rank. -/
theorem C4_duplicates_use_last_rank {K : Type} [DecidableEq K]
    (queries : List (List (K × ℚ))) (k : ℤ) (hk : 0 ≤ k) :
    ∃ out, rrf queries k = .ok out ∧
      (∀ key s, (key, s) ∈ out → s = codeScore queries k key) ∧
      (∀ key, key ∈ out.map Prod.fst ↔ ∃ q ∈ queries, key ∈ q.map Prod.fst) ∧
      dictKeys (rrfAccum k (queries.map rankDict)) = firstSeenOrder queries :=
  ⟨rrfTotal queries k, rrf_ok queries k hk,
    fun key s hm => rrfTotal_score_code queries k key s hm,
    fun key => rrfTotal_mem_keys queries k key,
    dictKeys_rrfAccum_firstSeen k queries⟩

/-- Witness for C4 at the duplicated-key input `[(0,_), (0,_), (1,_)]`. -/
theorem C4_witness :
    ∃ out, rrf [[((0 : Nat), (0 : ℚ)), (0, 0), (1, 0)]] 60 = .ok out ∧
      (∀ key s, (key, s) ∈ out →
        s = codeScore [[((0 : Nat), (0 : ℚ)), (0, 0), (1, 0)]] 60 key) ∧
      (∀ key, key ∈ out.map Prod.fst ↔
        ∃ q ∈ [[((0 : Nat), (0 : ℚ)), (0, 0), (1, 0)]], key ∈ q.map Prod.fst) ∧
      dictKeys (rrfAccum 60 ([[((0 : Nat), (0 : ℚ)), (0, 0), (1, 0)]].map rankDict)) =
        firstSeenOrder [[((0 : Nat), (0 : ℚ)), (0, 0), (1, 0)]] :=
  C4_duplicates_use_last_rank [[((0 : Nat), (0 : ℚ)), (0, 0), (1, 0)]] 60 (by norm_num)

/-- C8: for `A = [x, y, z]`, `B = [y, x, z]` and `k = 60`, `rrf` scores
`x` as `1/61 + 1/62`, `y` as `1/62 + 1/61` (a tie) and `z` as
`1/63 + 1/63`, ranking `x` and `y` above `z` with the tie resolved by
first-seen order (`x` first); and in general items with equal score retain
the relative order in which they were first encountered, scanned
list-by-list then item-by-item (`firstSeenOrder`). -/
theorem C8_example_and_tie_stability :
    (rrf [[((0 : Nat), (0 : ℚ)), (1, 0), (2, 0)], [(1, 0), (0, 0), (2, 0)]] 60 =
      .ok [(0, 1/61 + 1/62), (1, 1/62 + 1/61), (2, 1/63 + 1/63)]) ∧
    (∀ (K : Type) [DecidableEq K] (queries : List (List (K × ℚ))) (k : ℤ),
      0 ≤ k → ∀ (out : List (K × ℚ)) (a b : K) (s : ℚ),
        rrf queries k = .ok out →
        [a, b].Sublist (firstSeenOrder queries) →
        (a, s) ∈ out → (b, s) ∈ out →
        [(a, s), (b, s)].Sublist out) := by
  refine ⟨rrf_c8_eval, ?_⟩
  intro K instK queries k hk out a b s hok hfs ha hb
  have hout : out = rrfTotal queries k := by
    have h2 := rrf_ok queries k hk
    rw [hok] at h2
    exact Except.ok.inj h2
  subst hout
  have hnd : (dictKeys (rrfAccum k (queries.map rankDict))).Nodup :=
    nodup_dictKeys_rrfAccum k (queries.map rankDict)
  have hfs' : [a, b].Sublist ((rrfAccum k (queries.map rankDict)).map Prod.fst) := by
    rw [show (rrfAccum k (queries.map rankDict)).map Prod.fst
        = dictKeys (rrfAccum k (queries.map rankDict)) from rfl]
    rw [dictKeys_rrfAccum_firstSeen]
    exact hfs
  have hperm := List.mergeSort_perm (rrfAccum k (queries.map rankDict)) scoreDesc
  have ha' : (a, s) ∈ rrfAccum k (queries.map rankDict) := hperm.mem_iff.mp ha
  have hb' : (b, s) ∈ rrfAccum k (queries.map rankDict) := hperm.mem_iff.mp hb
  have hpair := pair_sublist_of_keys hnd hfs' ha' hb'
  exact List.pair_sublist_mergeSort scoreDesc_trans scoreDesc_total
    (by simp [scoreDesc]) hpair

/-- Witness for C8's stability clause at the example input: the tied pair
keeps its first-seen order in the output. -/
theorem C8_witness :
    [((0 : Nat), (1 : ℚ)/61 + 1/62), (1, 1/61 + 1/62)].Sublist
      [((0 : Nat), (1 : ℚ)/61 + 1/62), (1, 1/62 + 1/61), (2, 1/63 + 1/63)] :=
  C8_example_and_tie_stability.2 Nat
    [[((0 : Nat), (0 : ℚ)), (1, 0), (2, 0)], [(1, 0), (0, 0), (2, 0)]] 60
    (by norm_num) _ 0 1 (1/61 + 1/62) rrf_c8_eval
    (by rw [show firstSeenOrder
        [[((0 : Nat), (0 : ℚ)), (1, 0), (2, 0)], [(1, 0), (0, 0), (2, 0)]] = [0, 1, 2] from rfl]
        exact (List.sublist_cons_self 2 []).cons₂ 1 |>.cons₂ 0)
    (by simp)
    (by simp only [List.mem_cons, Prod.mk.injEq]
        norm_num)

/-- C1 counterexample: the claim quantifies over every integer `k`, but at
`k = -1` a rank-1 item makes `1.0 / (k + rank)` a division by zero, so
`rrf` raises `ZeroDivisionError` instead of returning a ranked list. -/
theorem C1_counterexample :
    rrf [[((0 : Nat), (0 : ℚ))]] (-1) =
      .error "ZeroDivisionError: float division by zero" :=
  rrf_c1_error

/-- Witness for C1 at a one-element ranked list and `k = 60`. -/
theorem C1_witness :
    ∃ out, rrf [[((0 : Nat), (1 : ℚ))]] 60 = .ok out ∧
      (∀ key, key ∈ out.map Prod.fst ↔
        ∃ q ∈ [[((0 : Nat), (1 : ℚ))]], key ∈ q.map Prod.fst) ∧
      (∀ key s, (key, s) ∈ out → s = specScore [[((0 : Nat), (1 : ℚ))]] 60 key) ∧
      out.Pairwise (fun a b => b.2 ≤ a.2) :=
  C1_rrf_fusion_spec [[((0 : Nat), (1 : ℚ))]] 60 (by norm_num)
    (by intro q hq; rcases List.mem_singleton.mp hq with rfl; simp)

end ESRag

namespace ESRag

theorem rrf_c5_eval : rrf [[((0 : Nat), (5 : ℚ))]] 60 = .ok [(0, 1/61)] := by
  rw [rrf_ok _ _ (by norm_num), rrfTotal]
  rw [show rrfAccum 60 ([[((0 : Nat), (5 : ℚ))]].map rankDict) =
    [(0, (0 : ℚ) + 1 / (((60 : ℤ) : ℚ) + ((1 : Nat) : ℚ)))] from rfl]
  rw [List.mergeSort_singleton]
  simp only [Except.ok.injEq, List.cons.injEq, Prod.mk.injEq, true_and, and_true]
  push_cast
  norm_num

/-- C5 counterexample: with the vector sub-query failing and the lexical
one returning native score `5`, `Collection.query` returns the native-score
list `[(0, 5)]`, whereas `fuse([lexical_list])` would give the rank-derived
score `1/61 ≠ 5`. -/
theorem C5_counterexample :
    queryResults 5 [.ok [((0 : Nat), (5 : ℚ))], .error "vector search failed"] =
      .ok [(0, 5)] ∧
    rrf [[((0 : Nat), (5 : ℚ))]] 60 = .ok [(0, 1/61)] ∧
    (Except.ok [((0 : Nat), (5 : ℚ))] ≠ (.ok [((0 : Nat), (1 : ℚ)/61)] : Except String _)) := by
  refine ⟨rfl, rrf_c5_eval, ?_⟩
  intro h
  have h2 := Except.ok.inj h
  have h3 : (5 : ℚ) = 1/61 := by
    have h4 := List.head_eq_of_cons_eq h2
    exact congrArg Prod.snd h4
  norm_num at h3

/-- C5 (amended): when the vector sub-query fails and the lexical one
succeeds, `Collection.query` returns the lexical `RankedList` itself — its
native scores, not `fuse([lexical_list])` — truncated to `size`, and does
not raise. -/
theorem C5_single_list_native_scores {K : Type} [DecidableEq K]
    (lex : List (K × ℚ)) (e : String) (size : Nat) :
    queryResults size [.ok lex, .error e] = .ok (lex.take size) := rfl

/-- C6: if every sub-query fails, `Collection.query` returns an empty
result list and does not raise: the failures are dropped from the lists
passed to fusion, leaving nothing to merge. -/
theorem C6_all_failures_empty_result {K : Type} [DecidableEq K]
    (responses : List (Except String (List (K × ℚ)))) (size : Nat)
    (hfail : ∀ r ∈ responses, ∃ e, r = .error e) :
    queryResults size responses = .ok [] := by
  have hcol : collectSearchResults responses = [] := by
    rw [collectSearchResults, List.filterMap_eq_nil_iff]
    intro r hr
    rcases hfail r hr with ⟨e, rfl⟩
    rfl
  rw [queryResults, hcol]
  show Except.ok (List.take size ([] : List (K × ℚ))) = .ok []
  rw [List.take_nil]

/-- Witness for C6 with both sub-queries failing. -/
theorem C6_witness :
    @queryResults Nat _ 5 [.error "text search failed", .error "vector search failed"] =
      .ok [] := by
  refine C6_all_failures_empty_result _ 5 ?_
  intro r hr
  rcases List.mem_cons.mp hr with rfl | hr
  · exact ⟨"text search failed", rfl⟩
  rcases List.mem_cons.mp hr with rfl | hr
  · exact ⟨"vector search failed", rfl⟩
  cases hr

end ESRag

namespace ESRag

/-- C3 counterexample: `split_text` does not return an empty span sequence
on the empty input — it raises `NameError`, because `rag.py` calls
`re.finditer` at line 288 without ever importing `re`. The same happens at
the non-empty input `"a"`, refuting the at-least-one-span clause as
well. -/
theorem C3_counterexample :
    split_text [] = .error "NameError: name re is not defined" ∧
    split_text [] ≠ .ok [] ∧
    split_text [97] = .error "NameError: name re is not defined" :=
  ⟨rfl, fun h => Except.noConfusion h, rfl⟩

/-- C3 (amended): the segmenter always fails — on every input string,
`split_text` raises `NameError: name re is not defined`, since the lookup
of the global name `re` at `rag.py` line 288 fails before any matching or
merging can happen. It never returns a span sequence, empty or not. -/
theorem C3_segmenter_output :
    ∀ s : List Nat, split_text s = .error "NameError: name re is not defined" :=
  fun _ => rfl

end ESRag
